import Mathlib

/-!
Shallow embedding of the messages_tui session engine, translated from the Go
sources: `internal/ui/input.go` (modal editor), `internal/ui/contacts.go`
(conversation list and fuzzy search), the root application model (`App`) and
the store (`Store`).  Text is modelled as `List Char`, cursor offsets as `Nat`,
timestamps as `Nat`.  The bubbles `textinput` library is external to the
repository; the few library operations the code relies on (`SetCursor`,
`SetValue`, `Reset`) are modelled with their documented clamping behaviour.
-/

namespace MessagesTui

/-! ## Modal editor data model (internal/ui/input.go) -/

/-- `InputMode` from input.go: insert or normal (vim-like). -/
inductive InputMode
  | insert
  | normal
deriving DecidableEq, Repr

/-- `PendingAction` from input.go: a vim command waiting for one more key. -/
inductive PendingAction
  | pendingNone
  | pendingFindForward
  | pendingFindBackward
  | pendingChange
  | pendingDelete
deriving DecidableEq, Repr

/-- Commands the input component can emit upward (`SendMessageMsg`,
`OpenEditorMsg`, `AttachFileMsg` in input.go). -/
inductive InputCmd
  | sendMsg (content : List Char)
  | openEditor (initial : List Char)
  | attachFile
deriving DecidableEq, Repr

/-- `InputModel` from input.go.  `value`/`pos` are the bubbles textinput
contents and cursor; `draftContent` stores full multiline content from the
external editor. -/
structure InputModel where
  value : List Char
  pos : Nat
  draftContent : List Char
  sending : Bool
  focused : Bool
  mode : InputMode
  pendingAction : PendingAction
  lastFindChar : Char
  lastFindDir : Int
deriving DecidableEq, Repr

/-- The Go zero byte: `lastFindChar` is unset while it equals this. -/
def nulChar : Char := Char.ofNat 0

/-- bubbles `textinput.SetCursor`: the library clamps the cursor into
`[0, len(value)]`. -/
def tiSetCursor (m : InputModel) (p : Nat) : InputModel :=
  { m with pos := min p m.value.length }

/-- bubbles `textinput.SetValue`: replaces the contents; the library keeps the
cursor inside the new bounds (every call site in input.go immediately
repositions the cursor afterwards, so only the clamping matters). -/
def tiSetValue (m : InputModel) (v : List Char) : InputModel :=
  { m with value := v, pos := min m.pos v.length }

/-- bubbles `textinput.Reset`: clears the contents and the cursor. -/
def tiReset (m : InputModel) : InputModel :=
  { m with value := [], pos := 0 }

/-- Whitespace as trimmed by Go `strings.TrimSpace` (`unicode.IsSpace`),
for the characters that can occur in this program's buffers. -/
def goIsSpace (c : Char) : Bool :=
  c == ' ' || c == Char.ofNat 9 || c == Char.ofNat 10 || c == Char.ofNat 11 ||
  c == Char.ofNat 12 || c == Char.ofNat 13 || c == Char.ofNat 133 || c == Char.ofNat 160

/-- Go `strings.TrimSpace`. -/
def trimSpace (v : List Char) : List Char :=
  ((v.dropWhile goIsSpace).reverse.dropWhile goIsSpace).reverse

/-- Forward run of a Go loop `for pos < len(val) && pred(val[pos]) { pos++ }`:
the cursor advances past the leading run of characters satisfying `pred`. -/
def skipRun (pred : Char → Bool) (v : List Char) (i : Nat) : Nat :=
  i + ((v.drop i).takeWhile pred).length

/-- Backward run of a Go loop `for pos > 0 && pred(val[pos-1]) { pos-- }`. -/
def backRun (pred : Char → Bool) (v : List Char) (i : Nat) : Nat :=
  i - ((v.take i).reverse.takeWhile pred).length

/-- The forward scan of input.go's find loops: first index `≥ i` (reported
against the original list via offset `i`) holding character `c`. -/
def scanFrom (c : Char) : List Char → Nat → Option Nat
  | [], _ => none
  | a :: rest, i => if a = c then some i else scanFrom c rest (i + 1)

/-- `for i := pos + 1; i < len(val); i++ { if val[i] == target { … } }`:
cursor of a forward find, unchanged when the character does not occur. -/
def findFwdPos (v : List Char) (c : Char) (p : Nat) : Nat :=
  (scanFrom c (v.drop (p + 1)) (p + 1)).getD p

/-- Descending scan of the backward find loop, checking indices
`i-1, i-2, …, 0` in order. -/
def scanBack (v : List Char) (c : Char) : Nat → Option Nat
  | 0 => none
  | i + 1 => if v.get? i = some c then some i else scanBack v c i

/-- `for i := pos - 1; i >= 0; i-- { if val[i] == target { … } }`. -/
def findBwdPos (v : List Char) (c : Char) (p : Nat) : Nat :=
  (scanBack v c p).getD p

/-- `moveToNextWord` from input.go. -/
def moveToNextWord (m : InputModel) : InputModel :=
  let p1 := skipRun (fun c => !(c == ' ')) m.value m.pos
  let p2 := skipRun (fun c => c == ' ') m.value p1
  tiSetCursor m p2

/-- `moveToPrevWord` from input.go. -/
def moveToPrevWord (m : InputModel) : InputModel :=
  let p1 := backRun (fun c => c == ' ') m.value m.pos
  let p2 := backRun (fun c => !(c == ' ')) m.value p1
  tiSetCursor m p2

/-- `moveToEndOfWord` from input.go. -/
def moveToEndOfWord (m : InputModel) : InputModel :=
  let v := m.value
  let p0 := if m.pos < v.length then m.pos + 1 else m.pos
  let p1 := skipRun (fun c => c == ' ') v p0
  let p2 := skipRun (fun c => !(c == ' ')) v p1
  let p3 := if p2 > 0 && (decide (p2 ≥ v.length) || (v.getD p2 ' ' == ' ')) then p2 - 1 else p2
  tiSetCursor m p3

/-- `deleteCharAtCursor` from input.go. -/
def deleteCharAtCursor (m : InputModel) : InputModel :=
  if m.pos < m.value.length then
    tiSetCursor (tiSetValue m (m.value.take m.pos ++ m.value.drop (m.pos + 1))) m.pos
  else m

/-- `deleteToEndOfLine` from input.go (`D`). -/
def deleteToEndOfLine (m : InputModel) : InputModel :=
  if m.pos < m.value.length then
    tiSetCursor (tiSetValue m (m.value.take m.pos)) m.pos
  else m

/-- `deleteToBeginningOfLine` from input.go. -/
def deleteToBeginningOfLine (m : InputModel) : InputModel :=
  if m.pos > 0 then
    tiSetCursor (tiSetValue m (m.value.drop m.pos)) 0
  else m

/-- `deleteToEndOfWord` from input.go. -/
def deleteToEndOfWord (m : InputModel) : InputModel :=
  let v := m.value
  let e1 := skipRun (fun c => !(c == ' ')) v m.pos
  let endPos := skipRun (fun c => c == ' ') v e1
  if endPos > m.pos then
    tiSetCursor (tiSetValue m (v.take m.pos ++ v.drop endPos)) m.pos
  else m

/-- `repeatFind` from input.go (`;`/`,`). -/
def repeatFind (m : InputModel) (dir : Int) : InputModel :=
  if dir > 0 then
    { m with pos := findFwdPos m.value m.lastFindChar m.pos }
  else
    { m with pos := findBwdPos m.value m.lastFindChar m.pos }

/-! ## Key messages (bubbletea `tea.KeyMsg`, external library) -/

/-- The key types this program dispatches on (`msg.Type` in bubbletea). -/
inductive KeyType
  | escape
  | enter
  | backspace
  | tab
  | shiftTab
  | ctrlA
  | ctrlU
  | ctrlW
  | ctrlAt
  | runes
  | other (s : String)
deriving DecidableEq, Repr

/-- A keystroke: type, rune payload (for `KeyRunes`) and alt modifier. -/
structure KeyMsg where
  type : KeyType
  runes : List Char := []
  alt : Bool := false
deriving DecidableEq, Repr

/-- bubbletea `KeyMsg.String()`. -/
def KeyMsg.str (k : KeyMsg) : String :=
  let base :=
    match k.type with
    | .escape => "esc"
    | .enter => "enter"
    | .backspace => "backspace"
    | .tab => "tab"
    | .shiftTab => "shift+tab"
    | .ctrlA => "ctrl+a"
    | .ctrlU => "ctrl+u"
    | .ctrlW => "ctrl+w"
    | .ctrlAt => "ctrl+@"
    | .runes => String.mk k.runes
    | .other s => s
  if k.alt then "alt+" ++ base else base

/-- Convenience constructor: the keystroke of a plain character key. -/
def charKey (c : Char) : KeyMsg := { type := KeyType.runes, runes := [c] }

/-- Convenience constructor: a keystroke from its rune payload. -/
def runesKey (rs : List Char) : KeyMsg := { type := KeyType.runes, runes := rs }

/-! ## Modal editor key handlers (input.go) -/

/-- The Enter branch shared by `handleInsertMode` and `handleNormalMode`:
submit `TrimSpace(draftContent)` when non-empty, else the trimmed single-line
buffer; on submit clear both and set the sending indicator. -/
def submitOnEnter (m : InputModel) : InputModel × Option InputCmd :=
  let content :=
    if trimSpace m.draftContent = [] then trimSpace m.value
    else trimSpace m.draftContent
  if content = [] then (m, none)
  else
    let m := tiReset m
    let m := { m with draftContent := [], sending := true }
    (m, some (InputCmd.sendMsg content))

/-- `handlePendingAction` from input.go: the second key of `f`/`F`/`c`/`d`.
The single-character guard is Go `len(msg.String()) == 1`, a byte count. -/
def handlePendingAction (m : InputModel) (k : KeyMsg) : InputModel × Option InputCmd :=
  let ch := k.str
  if ch = "esc" then ({ m with pendingAction := .pendingNone }, none)
  else
    match m.pendingAction with
    | .pendingFindForward =>
        if ch.utf8ByteSize ≠ 1 then ({ m with pendingAction := .pendingNone }, none)
        else
          let target := ch.data.headD nulChar
          ({ m with lastFindChar := target, lastFindDir := 1,
                    pos := findFwdPos m.value target m.pos,
                    pendingAction := .pendingNone }, none)
    | .pendingFindBackward =>
        if ch.utf8ByteSize ≠ 1 then ({ m with pendingAction := .pendingNone }, none)
        else
          let target := ch.data.headD nulChar
          ({ m with lastFindChar := target, lastFindDir := -1,
                    pos := findBwdPos m.value target m.pos,
                    pendingAction := .pendingNone }, none)
    | .pendingChange =>
        let m := { m with pendingAction := .pendingNone }
        if ch = "w" ∨ ch = "e" then
          ({ deleteToEndOfWord m with mode := .insert }, none)
        else if ch = "$" then
          ({ deleteToEndOfLine m with mode := .insert }, none)
        else if ch = "c" then
          ({ tiReset m with draftContent := [], mode := .insert }, none)
        else if ch = "0" then
          ({ deleteToBeginningOfLine m with mode := .insert }, none)
        else (m, none)
    | .pendingDelete =>
        let m := { m with pendingAction := .pendingNone }
        if ch = "w" ∨ ch = "e" then (deleteToEndOfWord m, none)
        else if ch = "$" then (deleteToEndOfLine m, none)
        else if ch = "d" then ({ tiReset m with draftContent := [] }, none)
        else if ch = "0" then (deleteToBeginningOfLine m, none)
        else (m, none)
    | .pendingNone => ({ m with pendingAction := .pendingNone }, none)

/-- The key switch of `handleNormalMode` from input.go (the body reached when
no pending action is set). -/
def dispatchNormal (m : InputModel) (k : KeyMsg) : InputModel × Option InputCmd :=
  match k.str with
    | "i" => ({ m with mode := .insert }, none)
    | "a" => (tiSetCursor { m with mode := .insert } (m.pos + 1), none)
    | "A" => (tiSetCursor { m with mode := .insert } m.value.length, none)
    | "I" => (tiSetCursor { m with mode := .insert } 0, none)
    | "v" =>
        let current := if m.draftContent = [] then m.value else m.draftContent
        (m, some (InputCmd.openEditor current))
    | "d" => ({ m with pendingAction := .pendingDelete }, none)
    | "D" => (deleteToEndOfLine m, none)
    | "c" => ({ m with pendingAction := .pendingChange }, none)
    | "C" => ({ deleteToEndOfLine m with mode := .insert }, none)
    | "f" => ({ m with pendingAction := .pendingFindForward }, none)
    | "F" => ({ m with pendingAction := .pendingFindBackward }, none)
    | ";" => (if m.lastFindChar ≠ nulChar then repeatFind m m.lastFindDir else m, none)
    | "," => (if m.lastFindChar ≠ nulChar then repeatFind m (-m.lastFindDir) else m, none)
    | "0" => (tiSetCursor m 0, none)
    | "$" => (tiSetCursor m m.value.length, none)
    | "h" => (if m.pos > 0 then tiSetCursor m (m.pos - 1) else m, none)
    | "l" => (if m.pos < m.value.length then tiSetCursor m (m.pos + 1) else m, none)
    | "w" => (moveToNextWord m, none)
    | "b" => (moveToPrevWord m, none)
    | "e" => (moveToEndOfWord m, none)
    | "x" => (deleteCharAtCursor m, none)
    | "enter" => submitOnEnter m
    | "esc" => ({ m with pendingAction := .pendingNone }, none)
    | _ => (m, none)

/-- `handleNormalMode` from input.go: pending actions are consumed first,
otherwise the key is dispatched through the normal-mode switch. -/
def handleNormalMode (m : InputModel) (k : KeyMsg) : InputModel × Option InputCmd :=
  if m.pendingAction ≠ .pendingNone then handlePendingAction m k
  else dispatchNormal m k

/-- `handleInsertMode` from input.go; ordinary typing is handled by the
external bubbles textinput component and leaves the model fields we track
unchanged except through that library. -/
def handleInsertMode (m : InputModel) (k : KeyMsg) : InputModel × Option InputCmd :=
  match k.type with
  | .escape => ({ m with mode := .normal }, none)
  | .enter => submitOnEnter m
  | .ctrlA => (m, some InputCmd.attachFile)
  | _ => (m, none)

/-- `InputModel.Update` restricted to keystrokes (input.go): only the focused
input reacts, dispatching on the current mode. -/
def inputUpdateKey (m : InputModel) (k : KeyMsg) : InputModel × Option InputCmd :=
  if m.focused then
    if m.mode = .normal then handleNormalMode m k else handleInsertMode m k
  else (m, none)

/-- `MessageSentNotifyMsg`/`MessageFailedNotifyMsg` handling in
`InputModel.Update`: clear the sending indicator. -/
def inputNotifyDone (m : InputModel) : InputModel :=
  { m with sending := false }

/-- `InputModel.SetValue` from input.go: store the full (possibly multiline)
content in `draftContent` and show a single-line preview in the text input. -/
def inputSetValue (m : InputModel) (value : List Char) : InputModel :=
  let m := { m with draftContent := value }
  if value.contains (Char.ofNat 10) then
    let lines := value.splitOn (Char.ofNat 10)
    let lineCount := lines.length
    let first := lines.headD []
    let preview := if first.length > 30 then first.take 30 ++ "...".data else first
    tiSetValue m (preview ++ " [+".data ++ (Nat.repr (lineCount - 1)).data ++ " lines]".data)
  else
    tiSetValue m value

/-- `InputModel.SetFocused` from input.go: gaining focus resets to insert
mode. -/
def inputSetFocused (m : InputModel) (f : Bool) : InputModel :=
  if f then { m with focused := true, mode := .insert }
  else { m with focused := false }

/-! ## Lemmas about the find scans -/

theorem scanFrom_some_spec {c : Char} {l : List Char} {i j : Nat}
    (h : scanFrom c l i = some j) :
    ∃ t, j = i + t ∧ l.get? t = some c ∧ ∀ u, u < t → l.get? u ≠ some c := by
  induction l generalizing i with
  | nil => simp [scanFrom] at h
  | cons a rest ih =>
      by_cases hac : a = c
      · refine ⟨0, ?_, ?_, ?_⟩
        · simp [scanFrom, hac] at h; omega
        · simpa [hac]
        · intro u hu; omega
      · simp only [scanFrom, if_neg hac] at h
        obtain ⟨t, ht, hget, hmin⟩ := ih h
        refine ⟨t + 1, by omega, by simpa using hget, ?_⟩
        intro u hu
        cases u with
        | zero => simpa using hac
        | succ u => simpa using hmin u (by omega)

theorem scanFrom_none_spec {c : Char} {l : List Char} {i : Nat}
    (h : scanFrom c l i = none) : ∀ t, l.get? t ≠ some c := by
  induction l generalizing i with
  | nil => intro t; simp
  | cons a rest ih =>
      by_cases hac : a = c
      · simp [scanFrom, hac] at h
      · simp only [scanFrom, if_neg hac] at h
        intro t
        cases t with
        | zero => simpa using hac
        | succ t => simpa using ih h t

theorem scanBack_some_spec {v : List Char} {c : Char} {p j : Nat}
    (h : scanBack v c p = some j) :
    j < p ∧ v.get? j = some c ∧ ∀ u, j < u → u < p → v.get? u ≠ some c := by
  induction p with
  | zero => simp [scanBack] at h
  | succ p ih =>
      by_cases hc : v.get? p = some c
      · simp only [scanBack, if_pos hc] at h
        obtain rfl : p = j := by simpa using h
        exact ⟨by omega, hc, fun u h1 h2 => by omega⟩
      · simp only [scanBack, if_neg hc] at h
        obtain ⟨h1, h2, h3⟩ := ih h
        refine ⟨by omega, h2, ?_⟩
        intro u hu1 hu2
        rcases Nat.lt_or_ge u p with hup | hup
        · exact h3 u hu1 hup
        · obtain rfl : u = p := by omega
          exact hc

theorem get?_drop_spec (v : List Char) (n t : Nat) :
    (v.drop n).get? t = v.get? (n + t) := by
  simp [List.get?_eq_getElem?, List.getElem?_drop]

theorem findFwdPos_le_length {v : List Char} {c : Char} {p : Nat}
    (hp : p ≤ v.length) : findFwdPos v c p ≤ v.length := by
  cases hscan : scanFrom c (v.drop (p + 1)) (p + 1) with
  | none => simp [findFwdPos, hscan, hp]
  | some j =>
      rw [findFwdPos, hscan, Option.getD_some]
      obtain ⟨t, rfl, hget, -⟩ := scanFrom_some_spec hscan
      obtain ⟨ht, -⟩ := List.get?_eq_some.mp hget
      simp only [List.length_drop] at ht
      omega

theorem findFwdPos_not_found {v : List Char} {c : Char} {p : Nat}
    (h : ∀ i, p < i → v.get? i ≠ some c) : findFwdPos v c p = p := by
  cases hscan : scanFrom c (v.drop (p + 1)) (p + 1) with
  | none => rw [findFwdPos, hscan, Option.getD_none]
  | some j =>
      exfalso
      obtain ⟨t, rfl, hget, -⟩ := scanFrom_some_spec hscan
      rw [get?_drop_spec] at hget
      exact absurd hget (h (p + 1 + t) (by omega))

theorem findFwdPos_found {v : List Char} {c : Char} {p i : Nat}
    (hi : v.get? i = some c) (hpi : p < i) :
    p < findFwdPos v c p ∧ v.get? (findFwdPos v c p) = some c ∧ findFwdPos v c p ≤ i := by
  cases hscan : scanFrom c (v.drop (p + 1)) (p + 1) with
  | none =>
      exfalso
      have hnone := scanFrom_none_spec hscan (i - (p + 1))
      rw [get?_drop_spec] at hnone
      have heq : p + 1 + (i - (p + 1)) = i := by omega
      rw [heq] at hnone
      exact hnone hi
  | some j =>
      rw [findFwdPos, hscan, Option.getD_some]
      obtain ⟨t, rfl, hget, hmin⟩ := scanFrom_some_spec hscan
      rw [get?_drop_spec] at hget
      refine ⟨by omega, hget, ?_⟩
      by_contra hlt
      push_neg at hlt
      have hti : i - (p + 1) < t := by omega
      have hne := hmin (i - (p + 1)) hti
      rw [get?_drop_spec] at hne
      have heq : p + 1 + (i - (p + 1)) = i := by omega
      rw [heq] at hne
      exact hne hi

theorem findBwdPos_le_length {v : List Char} {c : Char} {p : Nat}
    (hp : p ≤ v.length) : findBwdPos v c p ≤ v.length := by
  cases hscan : scanBack v c p with
  | none => simp [findBwdPos, hscan, hp]
  | some j =>
      rw [findBwdPos, hscan, Option.getD_some]
      obtain ⟨h1, -, -⟩ := scanBack_some_spec hscan
      omega

theorem scanBack_none_spec {v : List Char} {c : Char} {p : Nat}
    (h : scanBack v c p = none) : ∀ u, u < p → v.get? u ≠ some c := by
  induction p with
  | zero => intro u hu; omega
  | succ p ih =>
      by_cases hc : v.get? p = some c
      · simp only [scanBack] at h
        rw [if_pos hc] at h
        exact Option.noConfusion h
      · simp only [scanBack, if_neg hc] at h
        intro u hu
        rcases Nat.lt_or_ge u p with hup | hup
        · exact ih h u hup
        · obtain rfl : u = p := by omega
          exact hc

theorem findBwdPos_not_found {v : List Char} {c : Char} {p : Nat}
    (h : ∀ u, u < p → v.get? u ≠ some c) : findBwdPos v c p = p := by
  cases hscan : scanBack v c p with
  | none => rw [findBwdPos, hscan, Option.getD_none]
  | some j =>
      exfalso
      obtain ⟨h1, h2, -⟩ := scanBack_some_spec hscan
      exact h j h1 h2

theorem findBwdPos_found {v : List Char} {c : Char} {p i : Nat}
    (hi : v.get? i = some c) (hip : i < p) :
    findBwdPos v c p < p ∧ v.get? (findBwdPos v c p) = some c ∧
    i ≤ findBwdPos v c p := by
  cases hscan : scanBack v c p with
  | none =>
      exfalso
      exact scanBack_none_spec hscan i hip hi
  | some j =>
      rw [findBwdPos, hscan, Option.getD_some]
      obtain ⟨h1, h2, h3⟩ := scanBack_some_spec hscan
      refine ⟨h1, h2, ?_⟩
      by_contra hlt
      push_neg at hlt
      exact h3 i hlt hip hi

/-! ## Motion bound and no-op lemmas -/

theorem length_takeWhile_le_self (pred : Char → Bool) (l : List Char) :
    (l.takeWhile pred).length ≤ l.length := by
  induction l with
  | nil => simp
  | cons a rest ih =>
      by_cases hpa : pred a
      · simpa [List.takeWhile, hpa] using ih
      · simp [List.takeWhile, hpa]

theorem skipRun_le {pred : Char → Bool} {v : List Char} {i : Nat}
    (h : i ≤ v.length) : skipRun pred v i ≤ v.length := by
  unfold skipRun
  have h1 := length_takeWhile_le_self pred (v.drop i)
  have h2 : (v.drop i).length = v.length - i := List.length_drop i v
  omega

theorem backRun_le {pred : Char → Bool} {v : List Char} {i : Nat}
    (h : i ≤ v.length) : backRun pred v i ≤ v.length := by
  unfold backRun
  omega

/-! ## Motion keystroke sequences (claim C4 machinery) -/

/-- The Normal-mode cursor motions named by the spec: `h l w b e 0 $`,
`f`/`F` with their character argument, and the repeats `;` `,`. -/
inductive MotionKey
  | left
  | right
  | nextWord
  | prevWord
  | endWord
  | lineStart
  | lineEnd
  | find (c : Char)
  | findBack (c : Char)
  | repeatSame
  | repeatOpp
deriving DecidableEq, Repr

/-- The keystrokes a motion consists of (`f`/`F` consume one argument key). -/
def motionKeystrokes : MotionKey → List KeyMsg
  | .left => [charKey 'h']
  | .right => [charKey 'l']
  | .nextWord => [charKey 'w']
  | .prevWord => [charKey 'b']
  | .endWord => [charKey 'e']
  | .lineStart => [charKey '0']
  | .lineEnd => [charKey '$']
  | .find c => [charKey 'f', charKey c]
  | .findBack c => [charKey 'F', charKey c]
  | .repeatSame => [charKey ';']
  | .repeatOpp => [charKey ',']

/-- Feed a keystroke sequence through `InputModel.Update`. -/
def applyKeys (m : InputModel) (ks : List KeyMsg) : InputModel :=
  ks.foldl (fun acc k => (inputUpdateKey acc k).1) m

/-- Feed a sequence of motions through the editor. -/
def applyMotions (m : InputModel) (ms : List MotionKey) : InputModel :=
  ms.foldl (fun acc mk => applyKeys acc (motionKeystrokes mk)) m

/-- The state a Normal-mode motion starts from: focused input, Normal mode,
no pending action, cursor inside the buffer. -/
def MotionInv (m : InputModel) : Prop :=
  m.focused = true ∧ m.mode = .normal ∧ m.pendingAction = .pendingNone ∧
  m.pos ≤ m.value.length

theorem mk_singleton_ne (c : Char) (s : String) (hs : s.length ≠ 1) :
    String.mk [c] ≠ s := by
  intro h
  apply hs
  rw [← h]
  rfl

/-- One keystroke through `InputModel.Update`, keeping only the new model. -/
def stepKey (m : InputModel) (k : KeyMsg) : InputModel :=
  (inputUpdateKey m k).1

theorem applyKeys_cons (m : InputModel) (k : KeyMsg) (ks : List KeyMsg) :
    applyKeys m (k :: ks) = applyKeys (stepKey m k) ks := rfl

theorem applyKeys_nil (m : InputModel) : applyKeys m [] = m := rfl

theorem stepKey_normal (m : InputModel) (k : KeyMsg) (hf : m.focused = true)
    (hm : m.mode = .normal) : stepKey m k = (handleNormalMode m k).1 := by
  simp [stepKey, inputUpdateKey, hf, hm]

theorem handleNormalMode_nopending (m : InputModel) (k : KeyMsg)
    (hp : m.pendingAction = .pendingNone) :
    handleNormalMode m k = dispatchNormal m k := by
  unfold handleNormalMode
  rw [if_neg]
  simp [hp]

theorem handleNormalMode_pending (m : InputModel) (k : KeyMsg)
    (hp : m.pendingAction ≠ .pendingNone) :
    handleNormalMode m k = handlePendingAction m k := by
  unfold handleNormalMode
  rw [if_pos hp]

theorem tiSetCursor_motion_spec (m : InputModel) (q : Nat) (h : MotionInv m) :
    MotionInv (tiSetCursor m q) ∧ (tiSetCursor m q).value = m.value ∧
    (m.value = [] → (tiSetCursor m q).pos = m.pos) := by
  obtain ⟨hf, hm, hp, hpos⟩ := h
  refine ⟨⟨hf, hm, hp, by simp [tiSetCursor]⟩, rfl, ?_⟩
  intro hv
  simp only [tiSetCursor]
  rw [hv] at hpos ⊢
  simp at hpos ⊢
  omega

theorem moveToNextWord_spec (m : InputModel) (h : MotionInv m) :
    MotionInv (moveToNextWord m) ∧ (moveToNextWord m).value = m.value ∧
    (m.value = [] → (moveToNextWord m).pos = m.pos) := by
  unfold moveToNextWord
  exact tiSetCursor_motion_spec m _ h

theorem moveToPrevWord_spec (m : InputModel) (h : MotionInv m) :
    MotionInv (moveToPrevWord m) ∧ (moveToPrevWord m).value = m.value ∧
    (m.value = [] → (moveToPrevWord m).pos = m.pos) := by
  unfold moveToPrevWord
  exact tiSetCursor_motion_spec m _ h

theorem moveToEndOfWord_spec (m : InputModel) (h : MotionInv m) :
    MotionInv (moveToEndOfWord m) ∧ (moveToEndOfWord m).value = m.value ∧
    (m.value = [] → (moveToEndOfWord m).pos = m.pos) := by
  unfold moveToEndOfWord
  exact tiSetCursor_motion_spec m _ h

theorem motionInv_self (m : InputModel) (h : MotionInv m) :
    MotionInv m ∧ m.value = m.value ∧ (m.value = [] → m.pos = m.pos) :=
  ⟨h, rfl, fun _ => rfl⟩

theorem repeatFind_spec (m : InputModel) (d : Int) (h : MotionInv m) :
    MotionInv (repeatFind m d) ∧ (repeatFind m d).value = m.value ∧
    (m.value = [] → (repeatFind m d).pos = m.pos) := by
  obtain ⟨hf, hm, hp, hpos⟩ := h
  unfold repeatFind
  by_cases hd : d > 0 <;> simp only [hd, if_true, if_false, reduceIte]
  · refine ⟨⟨hf, hm, hp, findFwdPos_le_length hpos⟩, by trivial, ?_⟩
    intro hv
    have hpz : m.pos = 0 := by rw [hv] at hpos; simpa using hpos
    simp [hv, hpz, findFwdPos, scanFrom]
  · refine ⟨⟨hf, hm, hp, findBwdPos_le_length hpos⟩, by trivial, ?_⟩
    intro hv
    have hpz : m.pos = 0 := by rw [hv] at hpos; simpa using hpos
    simp [hv, hpz, findBwdPos, scanBack]

theorem dispatchNormal_h (m : InputModel) :
    dispatchNormal m (charKey 'h') =
      (if m.pos > 0 then tiSetCursor m (m.pos - 1) else m, none) := rfl

theorem dispatchNormal_l (m : InputModel) :
    dispatchNormal m (charKey 'l') =
      (if m.pos < m.value.length then tiSetCursor m (m.pos + 1) else m, none) := rfl

theorem dispatchNormal_w (m : InputModel) :
    dispatchNormal m (charKey 'w') = (moveToNextWord m, none) := rfl

theorem dispatchNormal_b (m : InputModel) :
    dispatchNormal m (charKey 'b') = (moveToPrevWord m, none) := rfl

theorem dispatchNormal_e (m : InputModel) :
    dispatchNormal m (charKey 'e') = (moveToEndOfWord m, none) := rfl

theorem dispatchNormal_zero (m : InputModel) :
    dispatchNormal m (charKey '0') = (tiSetCursor m 0, none) := rfl

theorem dispatchNormal_dollar (m : InputModel) :
    dispatchNormal m (charKey '$') = (tiSetCursor m m.value.length, none) := rfl

theorem dispatchNormal_semi (m : InputModel) :
    dispatchNormal m (charKey ';') =
      (if m.lastFindChar ≠ nulChar then repeatFind m m.lastFindDir else m, none) := rfl

theorem dispatchNormal_comma (m : InputModel) :
    dispatchNormal m (charKey ',') =
      (if m.lastFindChar ≠ nulChar then repeatFind m (-m.lastFindDir) else m, none) := rfl

theorem dispatchNormal_f (m : InputModel) :
    dispatchNormal m (charKey 'f') =
      ({ m with pendingAction := .pendingFindForward }, none) := rfl

theorem dispatchNormal_F (m : InputModel) :
    dispatchNormal m (charKey 'F') =
      ({ m with pendingAction := .pendingFindBackward }, none) := rfl

theorem dispatchNormal_d (m : InputModel) :
    dispatchNormal m (charKey 'd') =
      ({ m with pendingAction := .pendingDelete }, none) := rfl

theorem dispatchNormal_c (m : InputModel) :
    dispatchNormal m (charKey 'c') =
      ({ m with pendingAction := .pendingChange }, none) := rfl

theorem dispatchNormal_enter (m : InputModel) :
    dispatchNormal m { type := KeyType.enter } = submitOnEnter m := rfl

theorem handlePendingAction_findFwd (m : InputModel) (k : KeyMsg)
    (hp : m.pendingAction = .pendingFindForward) (hne : k.str ≠ "esc")
    (hsz : k.str.utf8ByteSize = 1) :
    handlePendingAction m k =
      ({ m with lastFindChar := k.str.data.headD nulChar, lastFindDir := 1,
                pos := findFwdPos m.value (k.str.data.headD nulChar) m.pos,
                pendingAction := .pendingNone }, none) := by
  simp only [handlePendingAction]
  rw [if_neg hne, hp]
  simp [hsz]

theorem handlePendingAction_findFwd_badKey (m : InputModel) (k : KeyMsg)
    (hp : m.pendingAction = .pendingFindForward) (hne : k.str ≠ "esc")
    (hsz : k.str.utf8ByteSize ≠ 1) :
    handlePendingAction m k = ({ m with pendingAction := .pendingNone }, none) := by
  simp only [handlePendingAction]
  rw [if_neg hne, hp]
  simp [hsz]

theorem handlePendingAction_findBwd (m : InputModel) (k : KeyMsg)
    (hp : m.pendingAction = .pendingFindBackward) (hne : k.str ≠ "esc")
    (hsz : k.str.utf8ByteSize = 1) :
    handlePendingAction m k =
      ({ m with lastFindChar := k.str.data.headD nulChar, lastFindDir := -1,
                pos := findBwdPos m.value (k.str.data.headD nulChar) m.pos,
                pendingAction := .pendingNone }, none) := by
  simp only [handlePendingAction]
  rw [if_neg hne, hp]
  simp [hsz]

theorem handlePendingAction_findBwd_badKey (m : InputModel) (k : KeyMsg)
    (hp : m.pendingAction = .pendingFindBackward) (hne : k.str ≠ "esc")
    (hsz : k.str.utf8ByteSize ≠ 1) :
    handlePendingAction m k = ({ m with pendingAction := .pendingNone }, none) := by
  simp only [handlePendingAction]
  rw [if_neg hne, hp]
  simp [hsz]

theorem handlePendingAction_dd (m : InputModel) (k : KeyMsg)
    (hp : m.pendingAction = .pendingDelete) (hk : k.str = "d") :
    handlePendingAction m k =
      ({ tiReset { m with pendingAction := .pendingNone } with draftContent := [] },
        none) := by
  simp only [handlePendingAction]
  rw [hk, hp]
  simp

theorem handlePendingAction_cc (m : InputModel) (k : KeyMsg)
    (hp : m.pendingAction = .pendingChange) (hk : k.str = "c") :
    handlePendingAction m k =
      ({ tiReset { m with pendingAction := .pendingNone } with
          draftContent := [], mode := .insert }, none) := by
  simp only [handlePendingAction]
  rw [hk, hp]
  simp

theorem motionStep_spec (mk : MotionKey) (m : InputModel) (h : MotionInv m) :
    MotionInv (applyKeys m (motionKeystrokes mk)) ∧
    (applyKeys m (motionKeystrokes mk)).value = m.value ∧
    (m.value = [] → (applyKeys m (motionKeystrokes mk)).pos = m.pos) := by
  obtain ⟨hf, hm, hp, hpos⟩ := h
  cases mk with
  | left =>
      rw [motionKeystrokes, applyKeys_cons, applyKeys_nil, stepKey_normal m _ hf hm,
        handleNormalMode_nopending m _ hp, dispatchNormal_h]
      by_cases h0 : m.pos > 0
      · rw [if_pos h0]
        exact tiSetCursor_motion_spec m _ ⟨hf, hm, hp, hpos⟩
      · rw [if_neg h0]
        exact motionInv_self m ⟨hf, hm, hp, hpos⟩
  | right =>
      rw [motionKeystrokes, applyKeys_cons, applyKeys_nil, stepKey_normal m _ hf hm,
        handleNormalMode_nopending m _ hp, dispatchNormal_l]
      by_cases h0 : m.pos < m.value.length
      · rw [if_pos h0]
        exact tiSetCursor_motion_spec m _ ⟨hf, hm, hp, hpos⟩
      · rw [if_neg h0]
        exact motionInv_self m ⟨hf, hm, hp, hpos⟩
  | nextWord =>
      rw [motionKeystrokes, applyKeys_cons, applyKeys_nil, stepKey_normal m _ hf hm,
        handleNormalMode_nopending m _ hp, dispatchNormal_w]
      exact moveToNextWord_spec m ⟨hf, hm, hp, hpos⟩
  | prevWord =>
      rw [motionKeystrokes, applyKeys_cons, applyKeys_nil, stepKey_normal m _ hf hm,
        handleNormalMode_nopending m _ hp, dispatchNormal_b]
      exact moveToPrevWord_spec m ⟨hf, hm, hp, hpos⟩
  | endWord =>
      rw [motionKeystrokes, applyKeys_cons, applyKeys_nil, stepKey_normal m _ hf hm,
        handleNormalMode_nopending m _ hp, dispatchNormal_e]
      exact moveToEndOfWord_spec m ⟨hf, hm, hp, hpos⟩
  | lineStart =>
      rw [motionKeystrokes, applyKeys_cons, applyKeys_nil, stepKey_normal m _ hf hm,
        handleNormalMode_nopending m _ hp, dispatchNormal_zero]
      exact tiSetCursor_motion_spec m _ ⟨hf, hm, hp, hpos⟩
  | lineEnd =>
      rw [motionKeystrokes, applyKeys_cons, applyKeys_nil, stepKey_normal m _ hf hm,
        handleNormalMode_nopending m _ hp, dispatchNormal_dollar]
      exact tiSetCursor_motion_spec m _ ⟨hf, hm, hp, hpos⟩
  | repeatSame =>
      rw [motionKeystrokes, applyKeys_cons, applyKeys_nil, stepKey_normal m _ hf hm,
        handleNormalMode_nopending m _ hp, dispatchNormal_semi]
      by_cases hch : m.lastFindChar ≠ nulChar
      · rw [if_pos hch]
        exact repeatFind_spec m _ ⟨hf, hm, hp, hpos⟩
      · rw [if_neg hch]
        exact motionInv_self m ⟨hf, hm, hp, hpos⟩
  | repeatOpp =>
      rw [motionKeystrokes, applyKeys_cons, applyKeys_nil, stepKey_normal m _ hf hm,
        handleNormalMode_nopending m _ hp, dispatchNormal_comma]
      by_cases hch : m.lastFindChar ≠ nulChar
      · rw [if_pos hch]
        exact repeatFind_spec m _ ⟨hf, hm, hp, hpos⟩
      · rw [if_neg hch]
        exact motionInv_self m ⟨hf, hm, hp, hpos⟩
  | find c =>
      rw [motionKeystrokes, applyKeys_cons, applyKeys_cons, applyKeys_nil,
        stepKey_normal m _ hf hm, handleNormalMode_nopending m _ hp, dispatchNormal_f]
      have hne : (charKey c).str ≠ "esc" := mk_singleton_ne c "esc" (by decide)
      dsimp only
      rw [stepKey_normal { m with pendingAction := .pendingFindForward } (charKey c) hf hm,
        handleNormalMode_pending { m with pendingAction := .pendingFindForward } (charKey c)
          (by simp)]
      by_cases hsz : ((charKey c).str).utf8ByteSize = 1
      · rw [handlePendingAction_findFwd _ _ rfl hne hsz]
        refine ⟨⟨hf, hm, rfl, findFwdPos_le_length hpos⟩, rfl, ?_⟩
        intro hv
        have hpz : m.pos = 0 := by rw [hv] at hpos; simpa using hpos
        simp [hv, hpz, findFwdPos, scanFrom]
      · rw [handlePendingAction_findFwd_badKey _ _ rfl hne hsz]
        exact ⟨⟨hf, hm, rfl, hpos⟩, rfl, fun _ => rfl⟩
  | findBack c =>
      rw [motionKeystrokes, applyKeys_cons, applyKeys_cons, applyKeys_nil,
        stepKey_normal m _ hf hm, handleNormalMode_nopending m _ hp, dispatchNormal_F]
      have hne : (charKey c).str ≠ "esc" := mk_singleton_ne c "esc" (by decide)
      dsimp only
      rw [stepKey_normal { m with pendingAction := .pendingFindBackward } (charKey c) hf hm,
        handleNormalMode_pending { m with pendingAction := .pendingFindBackward } (charKey c)
          (by simp)]
      by_cases hsz : ((charKey c).str).utf8ByteSize = 1
      · rw [handlePendingAction_findBwd _ _ rfl hne hsz]
        refine ⟨⟨hf, hm, rfl, findBwdPos_le_length hpos⟩, rfl, ?_⟩
        intro hv
        have hpz : m.pos = 0 := by rw [hv] at hpos; simpa using hpos
        simp [hv, hpz, findBwdPos, scanBack]
      · rw [handlePendingAction_findBwd_badKey _ _ rfl hne hsz]
        exact ⟨⟨hf, hm, rfl, hpos⟩, rfl, fun _ => rfl⟩

theorem applyMotions_spec (ms : List MotionKey) :
    ∀ m : InputModel, MotionInv m →
      MotionInv (applyMotions m ms) ∧ (applyMotions m ms).value = m.value ∧
      (m.value = [] → (applyMotions m ms).pos = m.pos) := by
  induction ms with
  | nil => exact fun m h => ⟨h, rfl, fun _ => rfl⟩
  | cons mk rest ih =>
      intro m h
      have hstep := motionStep_spec mk m h
      have hrest := ih (applyKeys m (motionKeystrokes mk)) hstep.1
      have heq : applyMotions m (mk :: rest) =
          applyMotions (applyKeys m (motionKeystrokes mk)) rest := rfl
      rw [heq]
      refine ⟨hrest.1, hrest.2.1.trans hstep.2.1, ?_⟩
      intro hv
      have hv1 : (applyKeys m (motionKeystrokes mk)).value = [] := hstep.2.1.trans hv
      exact (hrest.2.2 hv1).trans (hstep.2.2 hv)

/-- C4: starting from a focused Normal-mode editor with no pending action and
the cursor inside the buffer, any sequence of the Normal-mode motions
`h l w b e 0 $ f⟨c⟩ F⟨c⟩ ; ,` keeps the cursor offset within
`[0, len(buffer)]` (offsets are naturals, so `0 ≤ offset` is inherent), never
changes the buffer, and on an empty buffer leaves both the cursor and the
buffer exactly as they were (the motions are no-ops on the cursor and text;
`f`/`F` still record their argument character). -/
theorem C4_motion_sequences_stay_in_bounds (m : InputModel) (ms : List MotionKey)
    (hf : m.focused = true) (hm : m.mode = .normal)
    (hp : m.pendingAction = .pendingNone) (hpos : m.pos ≤ m.value.length) :
    (applyMotions m ms).pos ≤ (applyMotions m ms).value.length ∧
    (applyMotions m ms).value = m.value ∧
    (m.value = [] → (applyMotions m ms).pos = m.pos ∧ (applyMotions m ms).value = []) := by
  have h := applyMotions_spec ms m ⟨hf, hm, hp, hpos⟩
  refine ⟨h.1.2.2.2, h.2.1, ?_⟩
  intro hv
  exact ⟨h.2.2 hv, h.2.1.trans hv⟩

/-- A concrete editor state over the buffer "hello world". -/
def sampleModel : InputModel :=
  { value := "hello world".data, pos := 0, draftContent := [], sending := false,
    focused := true, mode := .normal, pendingAction := .pendingNone,
    lastFindChar := nulChar, lastFindDir := 0 }

/-- A concrete motion sequence touching every motion kind. -/
def sampleMotions : List MotionKey :=
  [.nextWord, .find 'o', .repeatSame, .left, .endWord, .lineEnd, .prevWord,
   .findBack 'h', .repeatOpp, .lineStart, .right]

theorem C4_witness :
    (applyMotions sampleModel sampleMotions).pos ≤ (applyMotions sampleModel sampleMotions).value.length ∧
    (applyMotions sampleModel sampleMotions).value = sampleModel.value ∧
    (sampleModel.value = [] →
      (applyMotions sampleModel sampleMotions).pos = sampleModel.pos ∧
      (applyMotions sampleModel sampleMotions).value = []) :=
  C4_motion_sequences_stay_in_bounds sampleModel sampleMotions rfl rfl rfl (by decide)

/-! ## Claim C2: the `f`/`F` character find -/

/-- A concrete editor state over the buffer "zab". -/
def zabModel : InputModel :=
  { value := "zab".data, pos := 0, draftContent := [], sending := false,
    focused := true, mode := .normal, pendingAction := .pendingNone,
    lastFindChar := nulChar, lastFindDir := 0 }

/-- C2 counterexample: on buffer `"zab"` with cursor 0, `f a` succeeds (cursor
1, remembered char `a`); the failed `f z` then leaves the cursor unchanged but
OVERWRITES the remembered find character with `z`, so the subsequent `,` jumps
backward to the `z` at index 0 — whereas repeating the previously successful
find (`a` backward from 1, last conjunct) would have left the cursor at 1.
This refutes the claim that a failed find does not corrupt the remembered
last-find state used by `,`. -/
theorem C2_counterexample :
    (applyKeys zabModel [charKey 'f', charKey 'a']).lastFindChar = 'a' ∧
    (applyKeys zabModel [charKey 'f', charKey 'a']).pos = 1 ∧
    (applyKeys zabModel [charKey 'f', charKey 'a', charKey 'f', charKey 'z']).pos = 1 ∧
    (applyKeys zabModel [charKey 'f', charKey 'a', charKey 'f', charKey 'z']).lastFindChar
      = 'z' ∧
    (applyKeys zabModel
        [charKey 'f', charKey 'a', charKey 'f', charKey 'z', charKey ',']).pos = 0 ∧
    findBwdPos "zab".data 'a' 1 = 1 := by decide

/-- C2 (amended): in Normal mode `f c` moves the cursor to the next occurrence
of `c` after the cursor (the nearest one, first conjunction block) and `F c`
moves it to the previous occurrence before the cursor (the nearest one,
second block); in either direction the cursor is unchanged when no such
occurrence exists, the buffer is untouched and the pending action is
consumed.  However — unlike the original claim — the remembered last-find
character and direction are updated to `c` and to the command's direction
(`1` for `f`, `-1` for `F`) unconditionally, even when the find fails, so
`;`/`,` afterwards repeat the failed character rather than the previously
successful one. -/
theorem C2_find_amended (m : InputModel) (c : Char)
    (hf : m.focused = true) (hm : m.mode = .normal)
    (hp : m.pendingAction = .pendingNone) (hpos : m.pos ≤ m.value.length)
    (hc : ((charKey c).str).utf8ByteSize = 1) :
    ((applyKeys m [charKey 'f', charKey c]).value = m.value ∧
     (applyKeys m [charKey 'f', charKey c]).pendingAction = .pendingNone ∧
     (applyKeys m [charKey 'f', charKey c]).lastFindChar = c ∧
     (applyKeys m [charKey 'f', charKey c]).lastFindDir = 1 ∧
     ((∀ i, m.pos < i → m.value.get? i ≠ some c) →
       (applyKeys m [charKey 'f', charKey c]).pos = m.pos) ∧
     (∀ i, m.pos < i → m.value.get? i = some c →
       m.pos < (applyKeys m [charKey 'f', charKey c]).pos ∧
       (applyKeys m [charKey 'f', charKey c]).pos ≤ i ∧
       m.value.get? (applyKeys m [charKey 'f', charKey c]).pos = some c)) ∧
    ((applyKeys m [charKey 'F', charKey c]).value = m.value ∧
     (applyKeys m [charKey 'F', charKey c]).pendingAction = .pendingNone ∧
     (applyKeys m [charKey 'F', charKey c]).lastFindChar = c ∧
     (applyKeys m [charKey 'F', charKey c]).lastFindDir = -1 ∧
     ((∀ i, i < m.pos → m.value.get? i ≠ some c) →
       (applyKeys m [charKey 'F', charKey c]).pos = m.pos) ∧
     (∀ i, i < m.pos → m.value.get? i = some c →
       (applyKeys m [charKey 'F', charKey c]).pos < m.pos ∧
       i ≤ (applyKeys m [charKey 'F', charKey c]).pos ∧
       m.value.get? (applyKeys m [charKey 'F', charKey c]).pos = some c)) := by
  have hne : (charKey c).str ≠ "esc" := mk_singleton_ne c "esc" (by decide)
  have hkc : (charKey c).str.data.headD nulChar = c := rfl
  constructor
  · rw [applyKeys_cons, applyKeys_cons, applyKeys_nil,
      stepKey_normal m _ hf hm, handleNormalMode_nopending m _ hp, dispatchNormal_f]
    dsimp only
    rw [stepKey_normal { m with pendingAction := .pendingFindForward } (charKey c) hf hm,
      handleNormalMode_pending { m with pendingAction := .pendingFindForward } (charKey c)
        (by simp),
      handlePendingAction_findFwd _ _ rfl hne hc]
    rw [hkc]
    refine ⟨rfl, rfl, rfl, rfl, ?_, ?_⟩
    · intro hnone
      exact findFwdPos_not_found hnone
    · intro i hip hic
      have h := findFwdPos_found hic hip
      exact ⟨h.1, h.2.2, h.2.1⟩
  · rw [applyKeys_cons, applyKeys_cons, applyKeys_nil,
      stepKey_normal m _ hf hm, handleNormalMode_nopending m _ hp, dispatchNormal_F]
    dsimp only
    rw [stepKey_normal { m with pendingAction := .pendingFindBackward } (charKey c) hf hm,
      handleNormalMode_pending { m with pendingAction := .pendingFindBackward } (charKey c)
        (by simp),
      handlePendingAction_findBwd _ _ rfl hne hc]
    rw [hkc]
    refine ⟨rfl, rfl, rfl, rfl, ?_, ?_⟩
    · intro hnone
      exact findBwdPos_not_found hnone
    · intro i hip hic
      have h := findBwdPos_found hic hip
      exact ⟨h.1, h.2.2, h.2.1⟩

theorem C2_find_amended_witness :
    ((applyKeys zabModel [charKey 'f', charKey 'a']).lastFindChar = 'a' ∧
     (applyKeys zabModel [charKey 'f', charKey 'a']).lastFindDir = 1 ∧
     zabModel.pos < (applyKeys zabModel [charKey 'f', charKey 'a']).pos) ∧
    ((applyKeys { zabModel with pos := 2 } [charKey 'F', charKey 'a']).lastFindChar
        = 'a' ∧
     (applyKeys { zabModel with pos := 2 } [charKey 'F', charKey 'a']).lastFindDir
        = -1 ∧
     (applyKeys { zabModel with pos := 2 } [charKey 'F', charKey 'a']).pos < 2) := by
  have hf := C2_find_amended zabModel 'a' rfl rfl rfl (by decide) (by decide)
  have hb := C2_find_amended { zabModel with pos := 2 } 'a' rfl rfl rfl
    (by decide) (by decide)
  refine ⟨⟨hf.1.2.2.1, hf.1.2.2.2.1, ?_⟩, hb.2.2.2.1, hb.2.2.2.2.1, ?_⟩
  · exact (hf.1.2.2.2.2.2 1 (by decide) (by decide)).1
  · exact (hb.2.2.2.2.2.2 1 (by decide) (by decide)).1

/-! ## Claim C5: `dd` and `cc` -/

/-- C5: from a focused Normal-mode editor with no pending action and a
non-empty buffer, `dd` empties the buffer (and the draft), and `cc` empties
the buffer and leaves the editor in Insert mode. -/
theorem C5_dd_cc_clear_line (m : InputModel) (hf : m.focused = true)
    (hm : m.mode = .normal) (hp : m.pendingAction = .pendingNone)
    (hv : m.value ≠ []) :
    (applyKeys m [charKey 'd', charKey 'd']).value = [] ∧
    (applyKeys m [charKey 'd', charKey 'd']).draftContent = [] ∧
    (applyKeys m [charKey 'c', charKey 'c']).value = [] ∧
    (applyKeys m [charKey 'c', charKey 'c']).draftContent = [] ∧
    (applyKeys m [charKey 'c', charKey 'c']).mode = .insert := by
  constructor
  · rw [applyKeys_cons, applyKeys_cons, applyKeys_nil,
      stepKey_normal m _ hf hm, handleNormalMode_nopending m _ hp, dispatchNormal_d]
    dsimp only
    rw [stepKey_normal { m with pendingAction := .pendingDelete } (charKey 'd') hf hm,
      handleNormalMode_pending { m with pendingAction := .pendingDelete } (charKey 'd')
        (by simp),
      handlePendingAction_dd { m with pendingAction := .pendingDelete } (charKey 'd') rfl rfl]
    rfl
  constructor
  · rw [applyKeys_cons, applyKeys_cons, applyKeys_nil,
      stepKey_normal m _ hf hm, handleNormalMode_nopending m _ hp, dispatchNormal_d]
    dsimp only
    rw [stepKey_normal { m with pendingAction := .pendingDelete } (charKey 'd') hf hm,
      handleNormalMode_pending { m with pendingAction := .pendingDelete } (charKey 'd')
        (by simp),
      handlePendingAction_dd { m with pendingAction := .pendingDelete } (charKey 'd') rfl rfl]
  · rw [applyKeys_cons, applyKeys_cons, applyKeys_nil,
      stepKey_normal m _ hf hm, handleNormalMode_nopending m _ hp, dispatchNormal_c]
    dsimp only
    rw [stepKey_normal { m with pendingAction := .pendingChange } (charKey 'c') hf hm,
      handleNormalMode_pending { m with pendingAction := .pendingChange } (charKey 'c')
        (by simp),
      handlePendingAction_cc { m with pendingAction := .pendingChange } (charKey 'c') rfl rfl]
    exact ⟨rfl, rfl, rfl⟩

/-! ## Claim C3: Enter submission -/

theorem enter_submits (m : InputModel) (hf : m.focused = true)
    (hmode : m.mode = .insert ∨ (m.mode = .normal ∧ m.pendingAction = .pendingNone)) :
    inputUpdateKey m { type := KeyType.enter } = submitOnEnter m := by
  rcases hmode with hi | ⟨hn, hp⟩
  · simp [inputUpdateKey, hf, hi, handleInsertMode]
  · simp only [inputUpdateKey, hf, hn, if_true, reduceIte]
    rw [handleNormalMode_nopending m _ hp, dispatchNormal_enter]

theorem submitOnEnter_spec (m : InputModel) :
    (trimSpace m.draftContent ≠ [] →
      (submitOnEnter m).2 = some (InputCmd.sendMsg (trimSpace m.draftContent)) ∧
      (submitOnEnter m).1.value = [] ∧ (submitOnEnter m).1.draftContent = [] ∧
      (submitOnEnter m).1.sending = true) ∧
    (trimSpace m.draftContent = [] → trimSpace m.value ≠ [] →
      (submitOnEnter m).2 = some (InputCmd.sendMsg (trimSpace m.value)) ∧
      (submitOnEnter m).1.value = [] ∧ (submitOnEnter m).1.draftContent = [] ∧
      (submitOnEnter m).1.sending = true) ∧
    (trimSpace m.draftContent = [] → trimSpace m.value = [] →
      submitOnEnter m = (m, none)) := by
  unfold submitOnEnter
  by_cases hd : trimSpace m.draftContent = [] <;>
    by_cases hv : trimSpace m.value = [] <;>
    simp [hd, hv, tiReset]

theorem inputSetValue_fields (m : InputModel) (d : List Char) :
    (inputSetValue m d).draftContent = d ∧ (inputSetValue m d).focused = m.focused ∧
    (inputSetValue m d).mode = m.mode ∧
    (inputSetValue m d).pendingAction = m.pendingAction := by
  unfold inputSetValue
  dsimp only
  split <;> exact ⟨rfl, rfl, rfl, rfl⟩

/-- A concrete focused Insert-mode editor whose draft is a single space and
whose single-line buffer reads "hi". -/
def spaceDraftModel : InputModel :=
  { value := "hi".data, pos := 0, draftContent := " ".data, sending := false,
    focused := true, mode := .insert, pendingAction := .pendingNone,
    lastFindChar := nulChar, lastFindDir := 0 }

/-- C3 counterexample: with a non-empty Draft consisting of a single space and
the single-line buffer "hi", Enter submits the buffer text "hi" — not the
(non-empty) Draft — refuting "pressing Enter submits the Draft if it is
non-empty [and] what is submitted is the Draft's exact content": the code
first trims the draft and falls back to the buffer when the trimmed draft is
empty. -/
theorem C3_counterexample :
    spaceDraftModel.draftContent ≠ [] ∧
    (inputUpdateKey spaceDraftModel { type := KeyType.enter }).2
      = some (InputCmd.sendMsg "hi".data) ∧
    InputCmd.sendMsg "hi".data ≠ InputCmd.sendMsg spaceDraftModel.draftContent := by
  decide

/-- C3 (amended): Enter (from focused Insert mode, or Normal mode with no
pending action) submits the whitespace-trimmed Draft when that is non-empty,
else the whitespace-trimmed single-line buffer; whenever something is
submitted both the Draft and the buffer are cleared and the sending indicator
is set.  A Draft with no surrounding whitespace — in particular any content
installed through `SetValue` after an external-editor result, which the editor
path has already trimmed — is submitted verbatim with its internal newlines,
not the single-line preview text shown in the buffer. -/
theorem C3_enter_submission_amended (m : InputModel) (hf : m.focused = true)
    (hmode : m.mode = .insert ∨ (m.mode = .normal ∧ m.pendingAction = .pendingNone)) :
    (trimSpace m.draftContent ≠ [] →
      (inputUpdateKey m { type := KeyType.enter }).2
        = some (InputCmd.sendMsg (trimSpace m.draftContent)) ∧
      (inputUpdateKey m { type := KeyType.enter }).1.value = [] ∧
      (inputUpdateKey m { type := KeyType.enter }).1.draftContent = [] ∧
      (inputUpdateKey m { type := KeyType.enter }).1.sending = true) ∧
    (trimSpace m.draftContent = [] → trimSpace m.value ≠ [] →
      (inputUpdateKey m { type := KeyType.enter }).2
        = some (InputCmd.sendMsg (trimSpace m.value)) ∧
      (inputUpdateKey m { type := KeyType.enter }).1.value = [] ∧
      (inputUpdateKey m { type := KeyType.enter }).1.draftContent = [] ∧
      (inputUpdateKey m { type := KeyType.enter }).1.sending = true) ∧
    (trimSpace m.draftContent = [] → trimSpace m.value = [] →
      inputUpdateKey m { type := KeyType.enter } = (m, none)) ∧
    (∀ d, trimSpace d = d → d ≠ [] →
      (inputUpdateKey (inputSetValue m d) { type := KeyType.enter }).2
        = some (InputCmd.sendMsg d)) := by
  rw [enter_submits m hf hmode]
  obtain ⟨h1, h2, h3⟩ := submitOnEnter_spec m
  refine ⟨h1, h2, h3, ?_⟩
  intro d hd hne
  obtain ⟨hdc, hfo, hmo, hpe⟩ := inputSetValue_fields m d
  have hf2 : (inputSetValue m d).focused = true := hfo.trans hf
  have hmode2 : (inputSetValue m d).mode = .insert ∨
      ((inputSetValue m d).mode = .normal ∧
       (inputSetValue m d).pendingAction = .pendingNone) := by
    rcases hmode with hi | ⟨hn, hq⟩
    · exact Or.inl (hmo.trans hi)
    · exact Or.inr ⟨hmo.trans hn, hpe.trans hq⟩
  rw [enter_submits (inputSetValue m d) hf2 hmode2]
  have hd2 : trimSpace (inputSetValue m d).draftContent ≠ [] := by
    rw [hdc, hd]
    exact hne
  have := (submitOnEnter_spec (inputSetValue m d)).1 hd2
  rw [this.1, hdc, hd]

theorem C3_enter_submission_amended_witness :
    (inputUpdateKey (inputSetValue spaceDraftModel ("a".data ++ [Char.ofNat 10] ++ "b".data))
        { type := KeyType.enter }).2
      = some (InputCmd.sendMsg ("a".data ++ [Char.ofNat 10] ++ "b".data)) :=
  (C3_enter_submission_amended spaceDraftModel rfl (Or.inl rfl)).2.2.2
    ("a".data ++ [Char.ofNat 10] ++ "b".data) (by decide) (by decide)

theorem C5_dd_cc_clear_line_witness :
    (applyKeys sampleModel [charKey 'd', charKey 'd']).value = [] ∧
    (applyKeys sampleModel [charKey 'd', charKey 'd']).draftContent = [] ∧
    (applyKeys sampleModel [charKey 'c', charKey 'c']).value = [] ∧
    (applyKeys sampleModel [charKey 'c', charKey 'c']).draftContent = [] ∧
    (applyKeys sampleModel [charKey 'c', charKey 'c']).mode = .insert :=
  C5_dd_cc_clear_line sampleModel rfl rfl rfl (by decide)

/-! ## Store data model (store.go) and the Go selection-style sort -/

/-- `store.Conversation` (store.go); the timestamp is modelled as a natural
number, `time.Time.After` as strict `>`. -/
structure Conversation where
  id : String
  name : String
  latestMessage : String
  latestTimestamp : Nat
  unread : Bool
deriving DecidableEq, Repr

/-- Inner loop of the double-loop sort used by `Store.GetConversations` and
`getFilteredConversations`: starting with candidate `x` at position `i`, scan
the later positions and swap whenever a strictly greater element is found.
Returns the final candidate and the remaining positions after the pass. -/
def innerSelect {α : Type} (gt : α → α → Bool) : α → List α → α × List α
  | x, [] => (x, [])
  | x, y :: ys =>
      if gt y x then ((innerSelect gt y ys).1, x :: (innerSelect gt y ys).2)
      else ((innerSelect gt x ys).1, y :: (innerSelect gt x ys).2)

theorem innerSelect_length {α : Type} (gt : α → α → Bool) (x : α) (l : List α) :
    (innerSelect gt x l).2.length = l.length := by
  induction l generalizing x with
  | nil => rfl
  | cons y ys ih =>
      unfold innerSelect
      by_cases h : gt y x <;> simp [h, ih]

/-- The double loop
`for i … { for j := i+1 … { if gt(l[j], l[i]) { swap } } }` from the Go
sources, rendered recursively: each outer step selects the maximum into the
head position. -/
def bubbleSortGo {α : Type} (gt : α → α → Bool) : List α → List α
  | [] => []
  | x :: xs =>
      (innerSelect gt x xs).1 :: bubbleSortGo gt (innerSelect gt x xs).2
termination_by l => l.length
decreasing_by
  simp only [innerSelect_length, List.length_cons]
  omega

theorem innerSelect_perm {α : Type} (gt : α → α → Bool) (x : α) (l : List α) :
    ((innerSelect gt x l).1 :: (innerSelect gt x l).2).Perm (x :: l) := by
  induction l generalizing x with
  | nil => exact List.Perm.refl _
  | cons y ys ih =>
      unfold innerSelect
      split
      · exact (List.Perm.swap x _ _).trans ((ih y).cons x)
      · exact ((List.Perm.swap y _ _).trans ((ih x).cons y)).trans (List.Perm.swap x y ys)

theorem bubbleSortGo_perm_aux {α : Type} (gt : α → α → Bool) :
    ∀ (n : Nat) (l : List α), l.length ≤ n → (bubbleSortGo gt l).Perm l := by
  intro n
  induction n with
  | zero =>
      intro l hl
      have hnil : l = [] := List.eq_nil_of_length_eq_zero (Nat.le_zero.mp hl)
      subst hnil
      simp [bubbleSortGo]
  | succ n ih =>
      intro l hl
      cases l with
      | nil => simp [bubbleSortGo]
      | cons x xs =>
          rw [bubbleSortGo]
          have hlen : (innerSelect gt x xs).2.length ≤ n := by
            rw [innerSelect_length]
            simp at hl
            omega
          exact ((ih _ hlen).cons _).trans (innerSelect_perm gt x xs)

theorem bubbleSortGo_perm {α : Type} (gt : α → α → Bool) (l : List α) :
    (bubbleSortGo gt l).Perm l :=
  bubbleSortGo_perm_aux gt l.length l (le_refl _)

theorem innerSelect_max {α β : Type} [LinearOrder β] (f : α → β) (x : α) (l : List α) :
    f x ≤ f (innerSelect (fun a b => decide (f a > f b)) x l).1 ∧
    ∀ z ∈ (innerSelect (fun a b => decide (f a > f b)) x l).2,
      f z ≤ f (innerSelect (fun a b => decide (f a > f b)) x l).1 := by
  induction l generalizing x with
  | nil => exact ⟨le_refl _, by simp [innerSelect]⟩
  | cons y ys ih =>
      unfold innerSelect
      split
      case isTrue h =>
        have hyx : f x < f y := by simpa using h
        obtain ⟨h1, h2⟩ := ih y
        refine ⟨le_of_lt (lt_of_lt_of_le hyx h1), ?_⟩
        intro z hz
        rcases List.mem_cons.mp hz with rfl | hz2
        · exact le_of_lt (lt_of_lt_of_le hyx h1)
        · exact h2 z hz2
      case isFalse h =>
        have hyx : f y ≤ f x := by
          have := (not_iff_not.mpr decide_eq_true_iff).mp h
          exact le_of_not_lt (by simpa using this)
        obtain ⟨h1, h2⟩ := ih x
        refine ⟨h1, ?_⟩
        intro z hz
        rcases List.mem_cons.mp hz with rfl | hz2
        · exact le_trans hyx h1
        · exact h2 z hz2

theorem bubbleSortGo_sorted_aux {α β : Type} [LinearOrder β] (f : α → β) :
    ∀ (n : Nat) (l : List α), l.length ≤ n →
      (bubbleSortGo (fun a b => decide (f a > f b)) l).Pairwise
        (fun p q => f q ≤ f p) := by
  intro n
  induction n with
  | zero =>
      intro l hl
      have hnil : l = [] := List.eq_nil_of_length_eq_zero (Nat.le_zero.mp hl)
      subst hnil
      simp [bubbleSortGo]
  | succ n ih =>
      intro l hl
      cases l with
      | nil => simp [bubbleSortGo]
      | cons x xs =>
          rw [bubbleSortGo]
          have hlen : (innerSelect (fun a b => decide (f a > f b)) x xs).2.length ≤ n := by
            rw [innerSelect_length]
            simp at hl
            omega
          refine List.Pairwise.cons ?_ (ih _ hlen)
          intro z hz
          have hperm := bubbleSortGo_perm (fun a b => decide (f a > f b))
            (innerSelect (fun a b => decide (f a > f b)) x xs).2
          have hz2 := hperm.mem_iff.mp hz
          exact (innerSelect_max f x xs).2 z hz2

theorem bubbleSortGo_sorted_key {α β : Type} [LinearOrder β] (f : α → β) (l : List α) :
    (bubbleSortGo (fun a b => decide (f a > f b)) l).Pairwise (fun p q => f q ≤ f p) :=
  bubbleSortGo_sorted_aux f l.length l (le_refl _)

/-- The conversation cache of `store.Store`, with the map values listed in
some (arbitrary) iteration order. -/
structure StoreModel where
  conversations : List Conversation
deriving DecidableEq, Repr

/-- `Store.GetConversations` from store.go: collect the cached conversations
and sort them by the double loop that swaps whenever a later entry has a
strictly later `LatestTimestamp` (`time.Time.After`). -/
def getConversations (s : StoreModel) : List Conversation :=
  bubbleSortGo (fun a b => decide (a.latestTimestamp > b.latestTimestamp))
    s.conversations

/-- C10: `GetConversations` returns exactly the cached conversations (a
permutation of the cache contents, whatever iteration order the map produced)
ordered newest-first: no element's latest-message timestamp is strictly later
than that of any element preceding it. -/
theorem C10_getConversations_sorted (s : StoreModel) :
    (getConversations s).Perm s.conversations ∧
    (getConversations s).Pairwise
      (fun p q => q.latestTimestamp ≤ p.latestTimestamp) :=
  ⟨bubbleSortGo_perm _ s.conversations,
   bubbleSortGo_sorted_key (fun c => c.latestTimestamp) s.conversations⟩

/-! ## Fuzzy search (contacts.go) -/

/-- Go `strings.Contains(target, query)` on rune lists: `query` occurs as a
contiguous substring. -/
def goContains (query : List Char) : List Char → Bool
  | [] => List.isPrefixOf query []
  | b :: rest => List.isPrefixOf query (b :: rest) || goContains query rest

/-- The character scan of `fuzzyMatch` (contacts.go): walk the target once,
consuming query characters in order; `i` is the current target index, `prev`
the previous target character (`none` at index 0), `lastMatch` the index of
the previous query-character match (`-1` initially), `consec` the current
consecutive-match run, `score` the accumulated score.  Returns the unconsumed
query remainder and the final score. -/
def fuzzyScan : List Char → List Char → Option Char → Nat → Int → Int → Int →
    List Char × Int
  | [], _, _, _, _, _, score => ([], score)
  | a :: q, [], _, _, _, _, score => (a :: q, score)
  | a :: q, b :: t, prev, i, lastMatch, consec, score =>
      if b = a then
        let s1 := score + 10
        let consec2 := if lastMatch = (i : Int) - 1 then consec + 1 else 0
        let s2 := if lastMatch = (i : Int) - 1 then s1 + (consec + 1) * 5 else s1
        let s3 := if prev = none ∨ prev = some ' ' ∨ prev = some '-' ∨ prev = some '_'
          then s2 + 20 else s2
        fuzzyScan q t (some b) (i + 1) (i : Int) consec2 s3
      else
        fuzzyScan (a :: q) t (some b) (i + 1) lastMatch consec score

/-- `fuzzyMatch` from contacts.go: empty query scores 1, empty target 0; a
contiguous substring scores 500 (+1000 at the start) plus the query length;
otherwise the single-pass scan must consume the whole query, with per-match,
consecutive and word-boundary bonuses, else the score is 0. -/
def fuzzyMatch (query target : List Char) : Int :=
  if query = [] then 1
  else if target = [] then 0
  else if goContains query target then
    (if List.isPrefixOf query target then 1000 + query.length else 500 + query.length)
  else
    let r := fuzzyScan query target none 0 (-1) 0 0
    if r.1 = [] then r.2 else 0

/-- Go `strings.ToLower` (ASCII case folding suffices for the characters this
program compares). -/
def goToLower (s : String) : List Char :=
  s.data.map Char.toLower

/-- `ContactsModel.getFilteredConversations` from contacts.go, as a function
of the search query and the conversation list: empty query returns the list
unfiltered; otherwise keep the conversations with positive fuzzy score
against the lowercased name and sort them by score (highest first) with the
double-loop swap sort. -/
def getFilteredConversations (searchQuery : String)
    (conversations : List Conversation) : List Conversation :=
  if searchQuery = "" then conversations
  else
    (bubbleSortGo (fun a b => decide (a.2 > b.2))
      (conversations.filterMap (fun conv =>
        if fuzzyMatch (goToLower searchQuery) (goToLower conv.name) > 0 then
          some (conv, fuzzyMatch (goToLower searchQuery) (goToLower conv.name))
        else none))).map Prod.fst

/-! ## Fuzzy-match characterisation -/

/-- The pure matching skeleton of the fuzzy scan: greedily consume query
characters in order while walking the target. -/
def greedySub : List Char → List Char → Bool
  | [], _ => true
  | _ :: _, [] => false
  | a :: q, b :: t => if b = a then greedySub q t else greedySub (a :: q) t

theorem fuzzyScan_fst_eq_greedy (t q : List Char) (prev : Option Char) (i : Nat)
    (lastMatch consec score : Int) :
    ((fuzzyScan q t prev i lastMatch consec score).1 = [] ↔ greedySub q t = true) := by
  induction t generalizing q prev i lastMatch consec score with
  | nil =>
      cases q with
      | nil => simp [fuzzyScan, greedySub]
      | cons a q => simp [fuzzyScan, greedySub]
  | cons b t ih =>
      cases q with
      | nil => simp [fuzzyScan, greedySub]
      | cons a q =>
          by_cases hba : b = a
          · simp only [fuzzyScan, greedySub, hba, if_true, reduceIte]
            exact ih q _ _ _ _ _
          · simp only [fuzzyScan, greedySub, hba, if_false, reduceIte]
            exact ih (a :: q) _ _ _ _ _

theorem fuzzyScan_score_mono (t q : List Char) (prev : Option Char) (i : Nat)
    (lastMatch consec score : Int) (hc : 0 ≤ consec) :
    score ≤ (fuzzyScan q t prev i lastMatch consec score).2 := by
  induction t generalizing q prev i lastMatch consec score with
  | nil => cases q <;> simp [fuzzyScan]
  | cons b t ih =>
      cases q with
      | nil => simp [fuzzyScan]
      | cons a q =>
          by_cases hba : b = a
          · simp only [fuzzyScan, hba, if_true, reduceIte]
            by_cases hl : lastMatch = (i : Int) - 1 <;>
              by_cases hb : prev = none ∨ prev = some ' ' ∨ prev = some '-' ∨
                prev = some '_' <;>
              simp only [hl, hb, if_true, if_false, reduceIte] <;>
              [skip; skip; skip; skip] <;>
              refine le_trans ?_ (ih q _ _ _ _ _ (by omega)) <;> omega
          · simp only [fuzzyScan, hba, if_false, reduceIte]
            exact ih (a :: q) _ _ _ _ _ hc

theorem fuzzyScan_success_score (t q : List Char) (prev : Option Char) (i : Nat)
    (lastMatch consec score : Int) (hc : 0 ≤ consec) (hq : q ≠ [])
    (h : (fuzzyScan q t prev i lastMatch consec score).1 = []) :
    score + 10 ≤ (fuzzyScan q t prev i lastMatch consec score).2 := by
  induction t generalizing q prev i lastMatch consec score with
  | nil =>
      cases q with
      | nil => exact absurd rfl hq
      | cons a q => simp [fuzzyScan] at h
  | cons b t ih =>
      cases q with
      | nil => exact absurd rfl hq
      | cons a q =>
          by_cases hba : b = a
          · simp only [fuzzyScan, hba, if_true, reduceIte] at h ⊢
            cases q with
            | nil =>
                refine le_trans ?_ (fuzzyScan_score_mono t [] _ _ _ _ _ (by
                  by_cases hl : lastMatch = (i : Int) - 1 <;> simp [hl] <;> omega))
                by_cases hl : lastMatch = (i : Int) - 1 <;>
                  by_cases hb : prev = none ∨ prev = some ' ' ∨ prev = some '-' ∨
                    prev = some '_' <;>
                  simp only [hl, hb, if_true, if_false, reduceIte] <;> omega
            | cons a2 q2 =>
                refine le_trans ?_ (ih (a2 :: q2) _ _ _ _ _ (by
                  by_cases hl : lastMatch = (i : Int) - 1 <;> simp [hl] <;> omega)
                  (by simp) h)
                by_cases hl : lastMatch = (i : Int) - 1 <;>
                  by_cases hb : prev = none ∨ prev = some ' ' ∨ prev = some '-' ∨
                    prev = some '_' <;>
                  simp only [hl, hb, if_true, if_false, reduceIte] <;> omega
          · simp only [fuzzyScan, hba, if_false, reduceIte] at h ⊢
            exact ih (a :: q) _ _ _ _ _ hc (by simp) h

theorem greedySub_iff_sublist (t q : List Char) :
    greedySub q t = true ↔ List.Sublist q t := by
  induction t generalizing q with
  | nil =>
      cases q with
      | nil => simp [greedySub]
      | cons a q => simp [greedySub, List.sublist_nil]
  | cons b t ih =>
      cases q with
      | nil => simp [greedySub, List.nil_sublist]
      | cons a q =>
          by_cases hba : b = a
          · subst hba
            simp only [greedySub, if_true, reduceIte]
            rw [ih q]
            exact (List.cons_sublist_cons).symm
          · simp only [greedySub, hba, if_false, reduceIte]
            rw [ih (a :: q)]
            constructor
            · intro h
              exact h.cons b
            · intro h
              cases h with
              | cons _ h2 => exact h2
              | cons₂ _ h2 => exact absurd rfl hba

theorem goContains_sublist (q : List Char) (t : List Char)
    (h : goContains q t = true) : List.Sublist q t := by
  induction t with
  | nil =>
      simp only [goContains] at h
      have : List.IsPrefix q [] := List.isPrefixOf_iff_prefix.mp h
      have hq : q = [] := List.sublist_nil.mp this.sublist
      simp [hq]
  | cons b t ih =>
      simp only [goContains, Bool.or_eq_true] at h
      rcases h with h1 | h2
      · exact (List.isPrefixOf_iff_prefix.mp h1).sublist
      · exact (ih h2).cons b

theorem fuzzyMatch_pos_iff (q t : List Char) (hq : q ≠ []) :
    0 < fuzzyMatch q t ↔ List.Sublist q t := by
  unfold fuzzyMatch
  rw [if_neg hq]
  by_cases ht : t = []
  · subst ht
    simp only [if_true, reduceIte]
    constructor
    · intro h
      exact absurd h (lt_irrefl 0)
    · intro h
      exact absurd (List.sublist_nil.mp h) hq
  · rw [if_neg ht]
    by_cases hcont : goContains q t = true
    · rw [if_pos hcont]
      have hsub := goContains_sublist q t hcont
      constructor
      · intro _
        exact hsub
      · intro _
        have hlen : (0 : Int) ≤ q.length := by positivity
        split <;> omega
    · rw [if_neg hcont]
      dsimp only
      by_cases hdone : (fuzzyScan q t none 0 (-1) 0 0).1 = []
      · rw [if_pos hdone]
        constructor
        · intro _
          exact (greedySub_iff_sublist t q).mp
            ((fuzzyScan_fst_eq_greedy t q none 0 (-1) 0 0).mp hdone)
        · intro _
          have := fuzzyScan_success_score t q none 0 (-1) 0 0 (le_refl 0) hq hdone
          omega
      · rw [if_neg hdone]
        constructor
        · intro h
          omega
        · intro h
          exfalso
          apply hdone
          rw [fuzzyScan_fst_eq_greedy]
          exact (greedySub_iff_sublist t q).mpr h

/-- C9: with an empty search query the contacts filter returns the
conversation list unchanged; with a non-empty query a conversation appears in
the filtered result exactly when the lowercased query is an in-order
subsequence of the lowercased conversation name (equivalently, exactly when
the fuzzy score is positive — substring hits are subsequences, and the greedy
scan succeeds precisely on subsequences). -/
theorem C9_fuzzy_filter_membership (q : String) (convs : List Conversation)
    (c : Conversation) :
    (q = "" → getFilteredConversations q convs = convs) ∧
    (q ≠ "" →
      (c ∈ getFilteredConversations q convs ↔
        c ∈ convs ∧ List.Sublist (goToLower q) (goToLower c.name))) := by
  constructor
  · intro h
    simp [getFilteredConversations, h]
  · intro hq
    have hql : goToLower q ≠ [] := by
      obtain ⟨l⟩ := q
      intro hnil
      simp only [goToLower, List.map_eq_nil] at hnil
      subst hnil
      exact hq rfl
    rw [getFilteredConversations, if_neg hq]
    constructor
    · intro hmem
      obtain ⟨p, hp, hpc⟩ := List.mem_map.mp hmem
      have hp2 := (bubbleSortGo_perm (fun a b : Conversation × Int => decide (a.2 > b.2)) _).mem_iff.mp hp
      obtain ⟨conv, hconv, hfn⟩ := List.mem_filterMap.mp hp2
      by_cases hpos : fuzzyMatch (goToLower q) (goToLower conv.name) > 0
      · rw [if_pos hpos] at hfn
        have hpe := Option.some.inj hfn
        subst hpe
        simp only at hpc
        subst hpc
        exact ⟨hconv, (fuzzyMatch_pos_iff _ _ hql).mp hpos⟩
      · rw [if_neg hpos] at hfn
        cases hfn
    · rintro ⟨hc, hsub⟩
      have hpos : fuzzyMatch (goToLower q) (goToLower c.name) > 0 :=
        (fuzzyMatch_pos_iff _ _ hql).mpr hsub
      refine List.mem_map.mpr
        ⟨(c, fuzzyMatch (goToLower q) (goToLower c.name)), ?_, rfl⟩
      refine (bubbleSortGo_perm (fun a b : Conversation × Int => decide (a.2 > b.2)) _).mem_iff.mpr ?_
      refine List.mem_filterMap.mpr ⟨c, hc, ?_⟩
      rw [if_pos hpos]

/-- A concrete conversation record. -/
def aliceConv : Conversation :=
  { id := "1", name := "Alice", latestMessage := "hello", latestTimestamp := 5,
    unread := false }

theorem C9_fuzzy_filter_membership_witness :
    getFilteredConversations "" [aliceConv] = [aliceConv] ∧
    aliceConv ∈ getFilteredConversations "ae" [aliceConv] :=
  ⟨(C9_fuzzy_filter_membership "" [aliceConv] aliceConv).1 rfl,
   ((C9_fuzzy_filter_membership "ae" [aliceConv] aliceConv).2 (by decide)).mpr
     ⟨by simp, (greedySub_iff_sublist (goToLower aliceConv.name) (goToLower "ae")).mp
       (by decide)⟩⟩

/-! ## Contacts panel (contacts.go) -/

/-- `ContactsModel` from contacts.go; the Go `int` fields are modelled as
`Int` to keep the index arithmetic exact. -/
structure ContactsModel where
  conversations : List Conversation
  selected : Int
  offset : Int
  width : Int
  height : Int
  focused : Bool
  searchMode : Bool
  searchQuery : List Char
  lastKeyWasG : Bool
deriving DecidableEq, Repr

/-- `ContactsModel.visibleItemCount`. -/
def contactsVisibleItemCount (m : ContactsModel) : Int :=
  (m.height - 3) / 2

/-- `deleteWordBackward` from contacts.go. -/
def deleteWordBackward (s : List Char) : List Char :=
  if s = [] then []
  else
    let e := backRun (fun c => c == ' ') s s.length
    let st := backRun (fun c => !(c == ' ')) s e
    s.take st

/-- `handleSearchInput` from contacts.go (search-mode keystrokes). -/
def handleSearchInput (m : ContactsModel) (k : KeyMsg) : ContactsModel :=
  match k.type with
  | .escape => { m with searchMode := false, searchQuery := [], selected := 0, offset := 0 }
  | .enter => { m with searchMode := false }
  | .backspace =>
      if m.searchQuery.length > 0 then
        { m with searchQuery := m.searchQuery.take (m.searchQuery.length - 1),
                 selected := 0, offset := 0 }
      else m
  | .ctrlU => { m with searchQuery := [], selected := 0, offset := 0 }
  | .ctrlW =>
      { m with searchQuery := deleteWordBackward m.searchQuery, selected := 0, offset := 0 }
  | .runes =>
      { m with searchQuery := m.searchQuery ++ k.runes, selected := 0, offset := 0 }
  | _ => m

/-- `ContactsModel.Update` from contacts.go, restricted to keystrokes. -/
def contactsUpdate (m : ContactsModel) (k : KeyMsg) : ContactsModel :=
  if !m.focused then m
  else if m.searchMode then handleSearchInput m k
  else if k.str = "g" then
    if m.lastKeyWasG then { m with selected := 0, offset := 0, lastKeyWasG := false }
    else { m with lastKeyWasG := true }
  else
    let m := { m with lastKeyWasG := false }
    if k.str = "up" ∨ k.str = "k" then
      if m.selected > 0 then
        let sel := m.selected - 1
        { m with selected := sel, offset := if sel < m.offset then sel else m.offset }
      else m
    else if k.str = "down" ∨ k.str = "j" then
      if m.selected < m.conversations.length - 1 then
        let sel := m.selected + 1
        let vis := contactsVisibleItemCount m
        { m with selected := sel,
                 offset := if sel ≥ m.offset + vis then sel - vis + 1 else m.offset }
      else m
    else if k.str = "G" then
      if m.conversations.length > 0 then
        let sel := (m.conversations.length : Int) - 1
        let vis := contactsVisibleItemCount m
        { m with selected := sel,
                 offset := if sel ≥ vis then sel - vis + 1 else m.offset }
      else m
    else if k.str = "/" then
      { m with searchMode := true, searchQuery := [] }
    else m

/-- `ContactsModel.getFilteredConversations` as the method on the model. -/
def contactsFiltered (m : ContactsModel) : List Conversation :=
  getFilteredConversations (String.mk m.searchQuery) m.conversations

/-- `ContactsModel.SelectedConversation` from contacts.go. -/
def contactsSelectedConversation (m : ContactsModel) : Option Conversation :=
  let convs := contactsFiltered m
  if 0 ≤ m.selected ∧ m.selected < convs.length then convs.get? m.selected.toNat
  else none

/-- `ContactsModel.SetFocused`. -/
def contactsSetFocused (m : ContactsModel) (f : Bool) : ContactsModel :=
  { m with focused := f }

/-! ## Messages panel (the `MessagesModel` source file) -/

/-- `store.Message`. -/
structure Message where
  id : String
  conversationID : String
  senderName : String
  content : String
  timestamp : Nat
  isFromMe : Bool
  status : String
deriving DecidableEq, Repr

/-- `MessagesModel`. -/
structure MessagesModel where
  messages : List Message
  conversationID : String
  selected : Int
  offset : Int
  width : Int
  height : Int
  focused : Bool
  lastKeyWasG : Bool
deriving DecidableEq, Repr

/-- `MessagesModel.visibleItemCount`. -/
def messagesVisibleItemCount (m : MessagesModel) : Int :=
  (m.height - 3) / 3

/-- `MessagesModel.Update` restricted to keystrokes. -/
def messagesUpdate (m : MessagesModel) (k : KeyMsg) : MessagesModel :=
  if !m.focused then m
  else if k.str = "g" then
    if m.lastKeyWasG then { m with selected := 0, offset := 0, lastKeyWasG := false }
    else { m with lastKeyWasG := true }
  else
    let m := { m with lastKeyWasG := false }
    if k.str = "up" ∨ k.str = "k" then
      if m.selected > 0 then
        let sel := m.selected - 1
        { m with selected := sel, offset := if sel < m.offset then sel else m.offset }
      else m
    else if k.str = "down" ∨ k.str = "j" then
      if m.selected < m.messages.length - 1 then
        let sel := m.selected + 1
        let vis := messagesVisibleItemCount m
        { m with selected := sel,
                 offset := if sel ≥ m.offset + vis then sel - vis + 1 else m.offset }
      else m
    else if k.str = "pgup" ∨ k.str = "ctrl+u" then
      let page := messagesVisibleItemCount m
      { m with selected := max 0 (m.selected - page), offset := max 0 (m.offset - page) }
    else if k.str = "pgdown" ∨ k.str = "ctrl+d" then
      let page := messagesVisibleItemCount m
      { m with selected := min ((m.messages.length : Int) - 1) (m.selected + page),
               offset := min (max 0 ((m.messages.length : Int) - page))
                 (m.offset + page) }
    else if k.str = "home" then
      { m with selected := 0, offset := 0 }
    else if k.str = "end" ∨ k.str = "G" then
      if m.messages.length > 0 then
        { m with selected := (m.messages.length : Int) - 1,
                 offset := max 0 ((m.messages.length : Int) - messagesVisibleItemCount m) }
      else m
    else m

/-- `MessagesModel.SetFocused`. -/
def messagesSetFocused (m : MessagesModel) (f : Bool) : MessagesModel :=
  { m with focused := f }

/-! ## Application model (the root `App` source file) -/

/-- `AppState`. -/
inductive AppState
  | loading
  | qrPairing
  | connected
  | error
deriving DecidableEq, Repr

/-- `FocusedPanel`. -/
inductive FocusedPanel
  | contacts
  | messages
  | input
deriving DecidableEq, Repr

/-- The Go integer value of a panel (`FocusedPanel` is an int enum). -/
def panelIdx : FocusedPanel → Nat
  | .contacts => 0
  | .messages => 1
  | .input => 2

/-- The panel of a Go integer in `0..2` (the only values the code produces). -/
def panelOfIdx : Nat → FocusedPanel
  | 0 => .contacts
  | 1 => .messages
  | _ => .input

/-- The keybinding configuration the root model reads
(`cfg.Keybinds.LeaderKey`, `.Global.*`, `.Navigation.*`; the config package
itself is an external collaborator — only the fields used here matter). -/
structure Keybinds where
  leaderKey : String
  quit : String
  nextPanel : String
  prevPanel : String
  help : String
  refresh : String
  navConversations : String
  navMessages : String
  navInput : String
deriving DecidableEq, Repr

/-- The asynchronous commands the update loop can emit. -/
inductive AppCmd
  | quit
  | loadConversations
  | loadMessages (conversationID : String)
  | sendNet (conversationID : String) (content : List Char)
  | fromInput (c : InputCmd)
  | listenExternal
deriving DecidableEq, Repr

/-- The root `App` model: lifecycle state, focused panel, status line, the
leader-pending flag, the active conversation, and the three panels. -/
structure App where
  cfg : Keybinds
  state : AppState
  focusedPanel : FocusedPanel
  statusMsg : String
  leaderKeyPressed : Bool
  activeConversationID : String
  errMsg : Option String
  contacts : ContactsModel
  messages : MessagesModel
  input : InputModel
deriving DecidableEq, Repr

/-- `matchesLeaderKey`: direct match, the `ctrl+space` alternate encodings,
and the generic `ctrl+<key>` form. -/
def matchesLeaderKey (cfg : Keybinds) (k : KeyMsg) : Bool :=
  let keyStr := k.str
  if keyStr = cfg.leaderKey then true
  else if cfg.leaderKey = "ctrl+space" ∧
      (keyStr = "ctrl+ " ∨ keyStr = "ctrl+@" ∨ k.type = KeyType.ctrlAt ∨
       (keyStr.utf8ByteSize = 1 ∧ keyStr.data.headD 'a' = nulChar)) then true
  else if cfg.leaderKey.length > 5 ∧ cfg.leaderKey.take 5 = "ctrl+" then
    decide (k.alt = false ∧ keyStr = "ctrl+" ++ cfg.leaderKey.drop 5)
  else false

/-- `handleLeaderKey`: the chord command table (`r` refreshes, the quit key
quits); any other key is unhandled. -/
def handleLeaderKeyFn (a : App) (k : KeyMsg) : App × Option AppCmd :=
  if k.str = "r" then
    ({ a with statusMsg := "Refreshing..." }, some AppCmd.loadConversations)
  else if k.str = a.cfg.quit then (a, some AppCmd.quit)
  else (a, none)

/-- Drop focus from every panel (the common prologue of `cycleFocus` and
`focusPanel`); unfocusing the input blurs it, focusing it later resets it to
Insert mode. -/
def unfocusAll (a : App) : App :=
  { a with contacts := contactsSetFocused a.contacts false,
           messages := messagesSetFocused a.messages false,
           input := inputSetFocused a.input false }

/-- Give one panel focus (the epilogue of `cycleFocus`). -/
def setPanelFocus (a : App) (p : FocusedPanel) : App :=
  match p with
  | .contacts => { a with contacts := contactsSetFocused a.contacts true }
  | .messages => { a with messages := messagesSetFocused a.messages true }
  | .input => { a with input := inputSetFocused a.input true }

/-- `cycleFocus`: `(int(panel) + direction + 3) % 3` (Go `%` is truncated
division, `Int.tmod`; the code only ever passes `direction = ±1`). -/
def cycleFocus (a : App) (direction : Int) : App :=
  let a := unfocusAll a
  let p := panelOfIdx
    ((((panelIdx a.focusedPanel : Int) + direction + 3).tmod 3).toNat)
  setPanelFocus { a with focusedPanel := p } p

/-- `focusPanel`: jump directly to a panel and set its status text. -/
def focusPanel (a : App) (p : FocusedPanel) : App :=
  let a := unfocusAll a
  let a := { a with focusedPanel := p }
  match p with
  | .contacts =>
      { a with contacts := contactsSetFocused a.contacts true,
               statusMsg := "Conversations" }
  | .messages =>
      { a with messages := messagesSetFocused a.messages true,
               statusMsg := "Messages" }
  | .input =>
      { a with input := inputSetFocused a.input true, statusMsg := "Input" }

/-- `handleLeaderNavigation`: the chord navigation table. -/
def handleLeaderNavigation (a : App) (k : KeyMsg) : Option App :=
  if k.str = a.cfg.navConversations then some (focusPanel a .contacts)
  else if k.str = a.cfg.navMessages then some (focusPanel a .messages)
  else if k.str = a.cfg.navInput then some (focusPanel a .input)
  else none

/-- `handleConnectedInput`: Enter on the contacts panel selects the
conversation and loads its messages. -/
def handleConnectedInput (a : App) (k : KeyMsg) : App × Option AppCmd :=
  if a.focusedPanel = .contacts ∧ k.str = "enter" then
    match contactsSelectedConversation a.contacts with
    | some conv =>
        ({ a with activeConversationID := conv.id,
                  statusMsg := "Selected: " ++ conv.name },
         some (AppCmd.loadMessages conv.id))
    | none => (a, none)
  else (a, none)

/-- The trailing per-focused-component update of `App.Update` for a
keystroke, including the reload issued whenever the contacts panel has a
selected conversation. -/
def updateFocusedComponent (a : App) (k : KeyMsg) : App × List AppCmd :=
  match a.focusedPanel with
  | .contacts =>
      let c2 := contactsUpdate a.contacts k
      let a2 := { a with contacts := c2 }
      match contactsSelectedConversation c2 with
      | some conv => (a2, [AppCmd.loadMessages conv.id])
      | none => (a2, [])
  | .messages => ({ a with messages := messagesUpdate a.messages k }, [])
  | .input =>
      let r := inputUpdateKey a.input k
      ({ a with input := r.1 }, (r.2.map AppCmd.fromInput).toList)

/-- The tail of the keystroke handling: the state-specific handling followed
by the focused-component update. -/
def appHandleKeyTail (a : App) (k : KeyMsg) : App × List AppCmd :=
  let r1 := if a.state = AppState.connected then handleConnectedInput a k else (a, none)
  let r2 := updateFocusedComponent r1.1 k
  (r2.1, r1.2.toList ++ r2.2)

/-- The part of the keystroke handling after the leader-chord block: the
leader check, the global keys (quit — unless the focused input holds text —
and the panel cycling), then the state-specific handling and the focused
component. -/
def appHandleKeyRest (a : App) (k : KeyMsg) : App × List AppCmd :=
  if matchesLeaderKey a.cfg k then
    ({ a with leaderKeyPressed := true, statusMsg := "-- LEADER --" }, [])
  else if k.str = a.cfg.quit ∨ k.str = "ctrl+c" then
    if a.focusedPanel = .input ∧ a.input.value ≠ [] then
      appHandleKeyTail a k
    else (a, [AppCmd.quit])
  else if k.str = a.cfg.nextPanel then (cycleFocus a 1, [])
  else if k.str = a.cfg.prevPanel then (cycleFocus a (-1), [])
  else appHandleKeyTail a k

/-- `App.Update` for a keystroke: the leader-chord protocol first (escape
cancels; otherwise the pending flag is cleared, the chord command and
navigation tables are consulted, and an unmatched key continues through
normal handling), then the rest. -/
def appHandleKey (a : App) (k : KeyMsg) : App × List AppCmd :=
  if a.leaderKeyPressed then
    if k.str = "esc" then
      ({ a with leaderKeyPressed := false, statusMsg := "" }, [])
    else
      let a1 := { a with leaderKeyPressed := false }
      let r := handleLeaderKeyFn a1 k
      match r.2 with
      | some cmd => (r.1, [cmd])
      | none =>
          match handleLeaderNavigation r.1 k with
          | some a2 => (a2, [])
          | none => appHandleKeyRest r.1 k
  else appHandleKeyRest a k

/-- The trailing component update for a non-keystroke message: the components
ignore it, but a focused contacts panel with a selection still issues a
message reload. -/
def appUpdateTail (a : App) : App × List AppCmd :=
  match a.focusedPanel with
  | .contacts =>
      match contactsSelectedConversation a.contacts with
      | some conv => (a, [AppCmd.loadMessages conv.id])
      | none => (a, [])
  | _ => (a, [])

/-- The `errorMsg` case of `App.Update`: record the error, surface it in the
status line, clear the sending indicator, and transition to the error state
only when not already connected. -/
def appHandleErrorMsg (a : App) (e : String) : App × List AppCmd :=
  let a1 := { a with errMsg := some e, statusMsg := "Error: " ++ e,
                     input := inputNotifyDone a.input }
  let a2 := if a1.state ≠ AppState.connected then { a1 with state := AppState.error }
            else a1
  let t := appUpdateTail a2
  (t.1, AppCmd.listenExternal :: t.2)

/-- `App.sendMessage`: with no active conversation, no background work is
spawned — the status line explains and the sending indicator is cleared;
otherwise the network send command for the captured conversation id is
returned. -/
def sendMessage (a : App) (content : List Char) : App × Option AppCmd :=
  if a.activeConversationID = "" then
    ({ a with statusMsg := "Select a conversation first! (Enter in contacts)",
              input := inputNotifyDone a.input }, none)
  else (a, some (AppCmd.sendNet a.activeConversationID content))

/-! ## Claims C6, C7, C8 -/

theorem appUpdateTail_fst (a : App) : (appUpdateTail a).1 = a := by
  unfold appUpdateTail
  split
  · split <;> rfl
  · rfl

/-- C6: processing an error event while `Connected` never transitions the
lifecycle state to `Errored` — the state stays `Connected`, the error is
surfaced only as a status message, and the sending indicator is cleared; an
error event received in any state other than `Connected` transitions the
state to `Errored`. -/
theorem C6_error_event_when_connected (a : App) (e : String) :
    (a.state = AppState.connected →
      (appHandleErrorMsg a e).1.state = AppState.connected ∧
      (appHandleErrorMsg a e).1.statusMsg = "Error: " ++ e ∧
      (appHandleErrorMsg a e).1.input.sending = false) ∧
    (a.state ≠ AppState.connected →
      (appHandleErrorMsg a e).1.state = AppState.error) := by
  unfold appHandleErrorMsg
  rw [appUpdateTail_fst]
  by_cases h : a.state = AppState.connected
  · constructor
    · intro _
      simp [h, inputNotifyDone]
    · intro hne
      exact absurd h hne
  · constructor
    · intro hc
      exact absurd hc h
    · intro _
      simp [h]

/-- A concrete connected application state with the input panel focused, an
empty active conversation, and the leader chord pending. -/
def sampleApp : App :=
  { cfg := { leaderKey := "ctrl+space", quit := "q", nextPanel := "tab",
             prevPanel := "shift+tab", help := "?", refresh := "ctrl+r",
             navConversations := "c", navMessages := "m", navInput := "i" },
    state := AppState.connected, focusedPanel := FocusedPanel.input,
    statusMsg := "-- LEADER --", leaderKeyPressed := true,
    activeConversationID := "", errMsg := none,
    contacts := { conversations := [], selected := 0, offset := 0, width := 0,
                  height := 0, focused := false, searchMode := false,
                  searchQuery := [], lastKeyWasG := false },
    messages := { messages := [], conversationID := "", selected := 0, offset := 0,
                  width := 0, height := 0, focused := false, lastKeyWasG := false },
    input := { value := "ab".data, pos := 0, draftContent := [], sending := true,
               focused := true, mode := InputMode.normal,
               pendingAction := PendingAction.pendingNone,
               lastFindChar := nulChar, lastFindDir := 0 } }

theorem C6_error_event_when_connected_witness :
    (sampleApp.state = AppState.connected →
      (appHandleErrorMsg sampleApp "boom").1.state = AppState.connected ∧
      (appHandleErrorMsg sampleApp "boom").1.statusMsg = "Error: " ++ "boom" ∧
      (appHandleErrorMsg sampleApp "boom").1.input.sending = false) ∧
    (sampleApp.state ≠ AppState.connected →
      (appHandleErrorMsg sampleApp "boom").1.state = AppState.error) :=
  C6_error_event_when_connected sampleApp "boom"

/-- C7: dispatching the send-message operation with an empty
active-conversation id spawns no background command (no network call), sets
the "select a conversation" status line, and resets the sending indicator to
false. -/
theorem C7_send_without_conversation (a : App) (content : List Char)
    (h : a.activeConversationID = "") :
    (sendMessage a content).2 = none ∧
    (sendMessage a content).1.statusMsg
      = "Select a conversation first! (Enter in contacts)" ∧
    (sendMessage a content).1.input.sending = false := by
  unfold sendMessage
  rw [if_pos h]
  exact ⟨rfl, rfl, rfl⟩

theorem C7_send_without_conversation_witness :
    (sendMessage sampleApp "hello".data).2 = none ∧
    (sendMessage sampleApp "hello".data).1.statusMsg
      = "Select a conversation first! (Enter in contacts)" ∧
    (sendMessage sampleApp "hello".data).1.input.sending = false :=
  C7_send_without_conversation sampleApp "hello".data rfl

theorem setPanelFocus_panel (a : App) (p : FocusedPanel) :
    (setPanelFocus a p).focusedPanel = a.focusedPanel := by
  cases p <;> rfl

theorem cycleFocus_panel (a : App) (d : Int) :
    (cycleFocus a d).focusedPanel =
      panelOfIdx ((((panelIdx a.focusedPanel : Int) + d + 3).tmod 3).toNat) := by
  unfold cycleFocus
  rw [setPanelFocus_panel]
  rfl

/-- C8: cycling the panel focus forward three times returns to the original
panel, and cycling forward then backward is the identity on the
focused-panel state. -/
theorem C8_focus_cycling_group (a : App) :
    (cycleFocus (cycleFocus (cycleFocus a 1) 1) 1).focusedPanel = a.focusedPanel ∧
    (cycleFocus (cycleFocus a 1) (-1)).focusedPanel = a.focusedPanel := by
  cases h : a.focusedPanel <;>
    constructor <;>
    simp only [cycleFocus_panel, h] <;>
    decide

/-! ## Claim C1: the leader-chord protocol -/

theorem handleConnectedInput_preserves (a : App) (k : KeyMsg) :
    (handleConnectedInput a k).1.focusedPanel = a.focusedPanel ∧
    (handleConnectedInput a k).1.leaderKeyPressed = a.leaderKeyPressed ∧
    (handleConnectedInput a k).1.cfg = a.cfg := by
  unfold handleConnectedInput
  split
  · split <;> exact ⟨rfl, rfl, rfl⟩
  · exact ⟨rfl, rfl, rfl⟩

theorem updateFocusedComponent_preserves (a : App) (k : KeyMsg) :
    (updateFocusedComponent a k).1.focusedPanel = a.focusedPanel ∧
    (updateFocusedComponent a k).1.leaderKeyPressed = a.leaderKeyPressed ∧
    (updateFocusedComponent a k).1.cfg = a.cfg := by
  unfold updateFocusedComponent
  split
  · dsimp only
    split <;> exact ⟨rfl, rfl, rfl⟩
  · exact ⟨rfl, rfl, rfl⟩
  · exact ⟨rfl, rfl, rfl⟩

theorem appHandleKeyTail_preserves (a : App) (k : KeyMsg) :
    (appHandleKeyTail a k).1.focusedPanel = a.focusedPanel ∧
    (appHandleKeyTail a k).1.leaderKeyPressed = a.leaderKeyPressed ∧
    (appHandleKeyTail a k).1.cfg = a.cfg := by
  unfold appHandleKeyTail
  dsimp only
  by_cases hs : a.state = AppState.connected
  · rw [if_pos hs]
    obtain ⟨c1, c2, c3⟩ := handleConnectedInput_preserves a k
    obtain ⟨u1, u2, u3⟩ := updateFocusedComponent_preserves (handleConnectedInput a k).1 k
    exact ⟨u1.trans c1, u2.trans c2, u3.trans c3⟩
  · rw [if_neg hs]
    exact updateFocusedComponent_preserves a k

theorem appHandleKeyRest_preserves (a : App) (k : KeyMsg)
    (h1 : matchesLeaderKey a.cfg k = false)
    (h2 : k.str ≠ a.cfg.quit) (h3 : k.str ≠ "ctrl+c")
    (h4 : k.str ≠ a.cfg.nextPanel) (h5 : k.str ≠ a.cfg.prevPanel) :
    (appHandleKeyRest a k).1.focusedPanel = a.focusedPanel ∧
    (appHandleKeyRest a k).1.leaderKeyPressed = a.leaderKeyPressed ∧
    (appHandleKeyRest a k).1.cfg = a.cfg := by
  unfold appHandleKeyRest
  rw [if_neg (by simp [h1]), if_neg (by simp [h2, h3]), if_neg h4, if_neg h5]
  exact appHandleKeyTail_preserves a k

theorem appHandleKey_leader_unmatched (a : App) (k : KeyMsg)
    (hl : a.leaderKeyPressed = true)
    (hk0 : k.str ≠ "esc") (hk1 : k.str ≠ "r") (hk2 : k.str ≠ a.cfg.quit)
    (hk3 : k.str ≠ a.cfg.navConversations) (hk4 : k.str ≠ a.cfg.navMessages)
    (hk5 : k.str ≠ a.cfg.navInput) :
    appHandleKey a k = appHandleKeyRest { a with leaderKeyPressed := false } k := by
  unfold appHandleKey
  simp only [hl, if_true, reduceIte]
  rw [if_neg hk0]
  unfold handleLeaderKeyFn
  rw [if_neg hk1, if_neg hk2]
  dsimp only
  unfold handleLeaderNavigation
  rw [if_neg hk3, if_neg hk4, if_neg hk5]

theorem appHandleKey_not_pending (a : App) (k : KeyMsg)
    (hl : a.leaderKeyPressed = false) :
    appHandleKey a k = appHandleKeyRest a k := by
  unfold appHandleKey
  simp [hl]

/-- The `"ctrl+ "` encoding bubbletea uses for a physical ctrl+space chord. -/
def ctrlSpaceAltKey : KeyMsg := { type := KeyType.other "ctrl+ " }

/-- C1 counterexample, at the sample configuration (leader `ctrl+space`,
navigation keys `c`/`m`/`i`, quit `q`): from a leader-pending state focused
on the input panel in Normal mode over buffer "ab",
(1) the unmapped follow-up key `x` clears the pending state but IS reprocessed
as a normal key — it reaches the input panel and deletes a character, leaving
the buffer "b" (the claim says the consumed key must not be reprocessed); and
(2) pressing the leader key itself as the unmapped follow-up re-arms the
chord, so the mapped navigation key `c` right after it DOES move focus from
the input panel to the contacts panel (the claim says focus must not change).
-/
theorem C1_counterexample :
    ((appHandleKey sampleApp (charKey 'x')).1.leaderKeyPressed = false ∧
     (appHandleKey sampleApp (charKey 'x')).1.input.value = "b".data) ∧
    ((appHandleKey (appHandleKey sampleApp ctrlSpaceAltKey).1 (charKey 'c')).1.focusedPanel
        = FocusedPanel.contacts ∧
     sampleApp.focusedPanel = FocusedPanel.input) := by
  decide

/-- C1 (amended): after the leader key is pressed, the very next keystroke
always clears the pending state (escape cancels with no further effect); a
key matching the chord tables (`r`, the quit key, or a navigation key) is
consumed by the chord, but any other key IS then reprocessed by the normal
key handling — so it can re-arm the chord if it is the leader key, trigger a
global key, or reach the focused panel.  Provided the follow-up key is not
the leader key and not a global key (quit / panel cycling), the focused panel
is unchanged by it, and a mapped navigation key pressed right after it does
not navigate either (navigation requires the pending state, which is already
cleared): the focused panel is still the original one. -/
theorem C1_leader_chord_amended (a : App) (k n : KeyMsg)
    (hl : a.leaderKeyPressed = true)
    (hk0 : k.str ≠ "esc") (hk1 : k.str ≠ "r") (hk2 : k.str ≠ a.cfg.quit)
    (hk3 : k.str ≠ a.cfg.navConversations) (hk4 : k.str ≠ a.cfg.navMessages)
    (hk5 : k.str ≠ a.cfg.navInput)
    (hk6 : matchesLeaderKey a.cfg k = false)
    (hk7 : k.str ≠ "ctrl+c") (hk8 : k.str ≠ a.cfg.nextPanel)
    (hk9 : k.str ≠ a.cfg.prevPanel)
    (hn1 : matchesLeaderKey a.cfg n = false)
    (hn2 : n.str ≠ a.cfg.quit) (hn3 : n.str ≠ "ctrl+c")
    (hn4 : n.str ≠ a.cfg.nextPanel) (hn5 : n.str ≠ a.cfg.prevPanel) :
    (appHandleKey a k).1.leaderKeyPressed = false ∧
    (appHandleKey a k).1.focusedPanel = a.focusedPanel ∧
    (appHandleKey (appHandleKey a k).1 n).1.focusedPanel = a.focusedPanel := by
  have hstep := appHandleKey_leader_unmatched a k hl hk0 hk1 hk2 hk3 hk4 hk5
  obtain ⟨r1, r2, r3⟩ :=
    appHandleKeyRest_preserves { a with leaderKeyPressed := false } k
      hk6 hk2 hk7 hk8 hk9
  have hlead : (appHandleKey a k).1.leaderKeyPressed = false := by
    rw [hstep]
    exact r2
  have hpanel : (appHandleKey a k).1.focusedPanel = a.focusedPanel := by
    rw [hstep]
    exact r1
  have hcfg : (appHandleKey a k).1.cfg = a.cfg := by
    rw [hstep]
    exact r3
  refine ⟨hlead, hpanel, ?_⟩
  rw [appHandleKey_not_pending _ n hlead]
  obtain ⟨s1, s2, s3⟩ :=
    appHandleKeyRest_preserves (appHandleKey a k).1 n
      (by rw [hcfg]; exact hn1) (by rw [hcfg]; exact hn2) hn3
      (by rw [hcfg]; exact hn4) (by rw [hcfg]; exact hn5)
  exact s1.trans hpanel

theorem C1_leader_chord_amended_witness :
    (appHandleKey sampleApp (charKey 'x')).1.leaderKeyPressed = false ∧
    (appHandleKey sampleApp (charKey 'x')).1.focusedPanel = sampleApp.focusedPanel ∧
    (appHandleKey (appHandleKey sampleApp (charKey 'x')).1 (charKey 'c')).1.focusedPanel
      = sampleApp.focusedPanel :=
  C1_leader_chord_amended sampleApp (charKey 'x') (charKey 'c') rfl
    (by decide) (by decide) (by decide) (by decide) (by decide) (by decide)
    (by decide) (by decide) (by decide) (by decide)
    (by decide) (by decide) (by decide) (by decide) (by decide)

end MessagesTui
